import Mathlib

/-!
Verification development for the edge-detection viewer.

The CPU path (`src/utils/edgeDetection.ts`) is embedded as pure functions over
`List ℕ` (the `Uint8ClampedArray` contents) and `List ℚ` (the `Float32Array`
contents).  JavaScript numbers are IEEE doubles; every finite double is a
rational number, so the numeric state is modelled exactly in `ℚ`.  The three
library functions whose exact double results the source consumes
(`Math.sqrt`, `Math.atan2`, and the constant `Math.PI`) are kept as
parameters of the embedding (`FloatOps`); theorems assume only properties
that hold of the real implementations (such as `Math.sqrt 0 = 0` and
nonnegativity of `Math.sqrt` on nonnegative inputs).

The GPU path (`src/utils/webglRenderer.ts`) is embedded as a state machine:
each method returns the updated renderer state together with the list of GL
commands it issues, so that claims about draw calls and disposal behaviour
become statements about the command trace.
-/

/-- Conversion performed when a JavaScript number is stored into a
`Uint8ClampedArray` (ECMAScript ToUint8Clamp): clamp to `[0, 255]`, then
round to the nearest integer with ties going to the even integer. -/
def clampedByte (q : ℚ) : ℕ :=
  if q ≤ 0 then 0
  else if 255 ≤ q then 255
  else
    let f : ℕ := (⌊q⌋).toNat
    let r : ℚ := q - ⌊q⌋
    if r < 1/2 then f
    else if 1/2 < r then f + 1
    else if f % 2 = 0 then f else f + 1

/-- An RGBA pixel buffer as delivered by `getImageData`: `width * height`
pixels, four 8-bit samples per pixel, row-major.  Mirrors `ImageData`. -/
structure PixelBuffer where
  width : ℕ
  height : ℕ
  data : List ℕ
deriving DecidableEq, Repr

/-- Coordinate clamping used by the blur: `Math.min(Math.max(v, 0), size - 1)`. -/
def clampCoord (v : ℤ) (size : ℕ) : ℕ :=
  (min (max v 0) ((size : ℤ) - 1)).toNat

/-- Sum of one colour channel over the `(2*radius+1) × (2*radius+1)`
clamp-to-edge neighbourhood of pixel `(x, y)`, as accumulated by the nested
`ky`/`kx` loops of `gaussianBlur` (`ky = k - radius` for `k < 2*radius+1`). -/
def blurChannelSum (data : List ℕ) (w h radius x y c : ℕ) : ℚ :=
  ∑ ky ∈ Finset.range (2 * radius + 1), ∑ kx ∈ Finset.range (2 * radius + 1),
    (data.getD
      ((clampCoord ((y : ℤ) + ky - radius) h * w +
        clampCoord ((x : ℤ) + kx - radius) w) * 4 + c) 0 : ℚ)

/-- The four samples written by one iteration of the blur loop at pixel `i`:
each channel sum divided by `count`, the number of samples taken (always
`(2*radius+1)^2`), stored through the clamped byte conversion, with the
alpha sample fixed at 255. -/
def blurPixel (data : List ℕ) (w h radius i : ℕ) : List ℕ :=
  let count : ℚ := ((2 * radius + 1) * (2 * radius + 1) : ℕ)
  let x := i % w
  let y := i / w
  [clampedByte (blurChannelSum data w h radius x y 0 / count),
   clampedByte (blurChannelSum data w h radius x y 1 / count),
   clampedByte (blurChannelSum data w h radius x y 2 / count),
   255]

/-- Stage 1 of `applyCannyEdgeDetection`: box blur with clamp-to-edge
borders, one `blurPixel` block per pixel in row-major order. -/
def gaussianBlur (buf : PixelBuffer) (radius : ℕ) : PixelBuffer :=
  { width := buf.width, height := buf.height,
    data := (List.range (buf.width * buf.height)).flatMap
      (blurPixel buf.data buf.width buf.height radius) }

/-- Stage 2: luminance conversion `0.299 R + 0.587 G + 0.114 B`, stored into
a `Uint8ClampedArray` of length `width * height`. -/
def toGrayscale (buf : PixelBuffer) : List ℕ :=
  (List.range (buf.width * buf.height)).map (fun i =>
    clampedByte (0.299 * (buf.data.getD (4 * i) 0 : ℚ) +
                 0.587 * (buf.data.getD (4 * i + 1) 0 : ℚ) +
                 0.114 * (buf.data.getD (4 * i + 2) 0 : ℚ)))

/-- Models of the IEEE-double library functions the pipeline consumes.
Every finite double is a rational, so `Math.sqrt` and `Math.atan2` restricted
to the (rational) values actually encountered are rational-valued functions,
and `Math.PI` is a rational constant.  Keeping them abstract lets every
statement say exactly which of their properties it relies on. -/
structure FloatOps where
  sqrtQ : ℚ → ℚ
  atan2Q : ℚ → ℚ → ℚ
  piQ : ℚ

/-- The interior region iterated by stages 3-5: `1 ≤ x < width - 1` and
`1 ≤ y < height - 1` (the source loops `for (let y = 1; y < height - 1; ...)`). -/
def isInterior (w h x y : ℕ) : Prop :=
  1 ≤ x ∧ x + 1 < w ∧ 1 ≤ y ∧ y + 1 < h

instance instDecidableIsInterior (w h x y : ℕ) : Decidable (isInterior w h x y) := by
  unfold isInterior; infer_instance

/-- The 3×3 Sobel-X kernel, flattened as in the source (`kidx = (ky+1)*3 + (kx+1)`). -/
def sobelXKernel : List ℤ := [-1, 0, 1, -2, 0, 2, -1, 0, 1]

/-- The 3×3 Sobel-Y kernel, flattened as in the source. -/
def sobelYKernel : List ℤ := [-1, -2, -1, 0, 0, 0, 1, 2, 1]

/-- Horizontal Sobel response `gx` at interior pixel `(x, y)`: the ky and kx loops of the source run over `-1..1`; here `ky, kx < 3` stand for the offsets
`ky - 1`, `kx - 1` (safe in `ℕ` because `x, y ≥ 1` at every call site). -/
def sobelGx (gray : List ℕ) (w x y : ℕ) : ℤ :=
  ∑ ky ∈ Finset.range 3, ∑ kx ∈ Finset.range 3,
    (gray.getD ((y + ky - 1) * w + (x + kx - 1)) 0 : ℤ) *
      sobelXKernel.getD (ky * 3 + kx) 0

/-- Vertical Sobel response `gy` at interior pixel `(x, y)`. -/
def sobelGy (gray : List ℕ) (w x y : ℕ) : ℤ :=
  ∑ ky ∈ Finset.range 3, ∑ kx ∈ Finset.range 3,
    (gray.getD ((y + ky - 1) * w + (x + kx - 1)) 0 : ℤ) *
      sobelYKernel.getD (ky * 3 + kx) 0

/-- Stage 3, magnitude half: `Math.sqrt(gx*gx + gy*gy)` on the interior; the
`Float32Array` is zero-initialised, so border entries are 0.  The source
fills magnitude and direction in one loop; they are split here into two
definitions and recombined in `sobelGradient`. -/
def sobelMagnitude (F : FloatOps) (gray : List ℕ) (w h : ℕ) : List ℚ :=
  (List.range (w * h)).map (fun i =>
    let x := i % w
    let y := i / w
    if isInterior w h x y then
      F.sqrtQ ((sobelGx gray w x y : ℚ) * (sobelGx gray w x y : ℚ) +
               (sobelGy gray w x y : ℚ) * (sobelGy gray w x y : ℚ))
    else 0)

/-- Stage 3, direction half: `Math.atan2(gy, gx)` on the interior, 0 on the border. -/
def sobelDirection (F : FloatOps) (gray : List ℕ) (w h : ℕ) : List ℚ :=
  (List.range (w * h)).map (fun i =>
    let x := i % w
    let y := i / w
    if isInterior w h x y then
      F.atan2Q (sobelGy gray w x y : ℚ) (sobelGx gray w x y : ℚ)
    else 0)

/-- Stage 3 public result: the `{ magnitude, direction }` pair. -/
def sobelGradient (F : FloatOps) (gray : List ℕ) (w h : ℕ) : List ℚ × List ℚ :=
  (sobelMagnitude F gray w h, sobelDirection F gray w h)

/-- Stage 4 at one interior pixel: quantise the gradient direction (converted
to degrees by multiplying with `180 / Math.PI`) into one of four bins, pick
the two neighbours along that axis, and keep the magnitude only if it is
`≥` both.  The neighbour index arithmetic (`idx - width + 1` and so on) is
exact in `ℕ` because `idx = y*w + x` with `x, y ≥ 1`. -/
def nmsAt (magnitude direction : List ℚ) (w : ℕ) (piQ : ℚ) (x y : ℕ) : ℚ :=
  let idx := y * w + x
  let angle := direction.getD idx 0 * (180 / piQ)
  let mag := magnitude.getD idx 0
  let mag1 : ℚ :=
    if (-22.5 ≤ angle ∧ angle < 22.5) ∨ (157.5 ≤ angle ∨ angle < -157.5) then
      magnitude.getD (idx - 1) 0
    else if (22.5 ≤ angle ∧ angle < 67.5) ∨ (-157.5 ≤ angle ∧ angle < -112.5) then
      magnitude.getD (idx - w + 1) 0
    else if (67.5 ≤ angle ∧ angle < 112.5) ∨ (-112.5 ≤ angle ∧ angle < -67.5) then
      magnitude.getD (idx - w) 0
    else
      magnitude.getD (idx - w - 1) 0
  let mag2 : ℚ :=
    if (-22.5 ≤ angle ∧ angle < 22.5) ∨ (157.5 ≤ angle ∨ angle < -157.5) then
      magnitude.getD (idx + 1) 0
    else if (22.5 ≤ angle ∧ angle < 67.5) ∨ (-157.5 ≤ angle ∧ angle < -112.5) then
      magnitude.getD (idx + w - 1) 0
    else if (67.5 ≤ angle ∧ angle < 112.5) ∨ (-112.5 ≤ angle ∧ angle < -67.5) then
      magnitude.getD (idx + w) 0
    else
      magnitude.getD (idx + w + 1) 0
  if mag1 ≤ mag ∧ mag2 ≤ mag then mag else 0

/-- Stage 4: non-maximum suppression.  The output `Float32Array` is
zero-initialised and only interior pixels are written. -/
def nonMaxSuppression (magnitude direction : List ℚ) (w h : ℕ) (piQ : ℚ) : List ℚ :=
  (List.range (w * h)).map (fun i =>
    let x := i % w
    let y := i / w
    if isInterior w h x y then nmsAt magnitude direction w piQ x y else 0)

/-- Stage 5, first pass: double threshold.  `strong = 255`, `weak = 128`;
the loop runs over the whole magnitude array (borders included). -/
def doubleThreshold (magnitude : List ℚ) (low high : ℚ) : List ℕ :=
  magnitude.map (fun m => if high ≤ m then 255 else if low ≤ m then 128 else 0)

/-- Flat index of pixel `(x, y)` in a width-`w` grid (`idx = y * width + x`). -/
def posIdx (w : ℕ) (p : ℕ × ℕ) : ℕ := p.2 * w + p.1

/-- The eight neighbour indices inspected by the hysteresis pass at interior
pixel `(x, y)`, in the ky/kx iteration order of the source with `(0,0)`
skipped.  Exact in `ℕ` because `x, y ≥ 1` at every call site. -/
def neighborIdxList (w x y : ℕ) : List ℕ :=
  [(y - 1) * w + (x - 1), (y - 1) * w + x, (y - 1) * w + (x + 1),
   y * w + (x - 1), y * w + (x + 1),
   (y + 1) * w + (x - 1), (y + 1) * w + x, (y + 1) * w + (x + 1)]

/-- The `hasStrongNeighbor` scan of the hysteresis pass: does any of the
eight neighbours currently hold the strong label 255?  (The early break statements of the source do
not change the computed value.) -/
def hasStrongNeighbor (edges : List ℕ) (w x y : ℕ) : Bool :=
  (neighborIdxList w x y).any (fun nidx => edges.getD nidx 0 = 255)

/-- One iteration of the hysteresis edge-tracking loop at pixel `p = (x, y)`:
if the pixel currently holds the weak label 128, overwrite it in place with
255 when a strong neighbour exists and with 0 otherwise. -/
def hystStep (w : ℕ) (edges : List ℕ) (p : ℕ × ℕ) : List ℕ :=
  let idx := posIdx w p
  if edges.getD idx 0 = 128 then
    edges.set idx (if hasStrongNeighbor edges w p.1 p.2 then 255 else 0)
  else edges

/-- The interior pixels in the raster-scan order of the hysteresis loops:
`y` from 1 to `height - 2`, and for each `y`, `x` from 1 to `width - 2`. -/
def hystPositions (w h : ℕ) : List (ℕ × ℕ) :=
  (List.range' 1 (h - 2)).flatMap (fun y =>
    (List.range' 1 (w - 2)).map (fun x => (x, y)))

/-- Stage 5: double threshold followed by the in-place single-pass
edge-tracking loop (the pass reads the array as it is being rewritten). -/
def hysteresis (magnitude : List ℚ) (w h : ℕ) (low high : ℚ) : List ℕ :=
  (hystPositions w h).foldl (hystStep w) (doubleThreshold magnitude low high)

/-- Expansion of a single-channel value list into RGBA data, as done by the
output loop of both detectors: `R = G = B = value`, alpha 255. -/
def rgbaOfValues (vals : List ℕ) : List ℕ :=
  vals.flatMap (fun v => [v, v, v, 255])

/-- The edge map computed by `applyCannyEdgeDetection` before RGBA encoding:
blur (radius 2), grayscale, Sobel gradient, non-maximum suppression, double
threshold and hysteresis. -/
def cannyEdgeMap (F : FloatOps) (buf : PixelBuffer) (low high : ℚ) : List ℕ :=
  let blurred := gaussianBlur buf 2
  let gray := toGrayscale blurred
  let grad := sobelGradient F gray buf.width buf.height
  let suppressed := nonMaxSuppression grad.1 grad.2 buf.width buf.height F.piQ
  hysteresis suppressed buf.width buf.height low high

/-- The full `applyCannyEdgeDetection` entry point.  Canvas plumbing
(`getContext`, `getImageData`, `putImageData`) is modelled as direct access
to the pixel buffer; the context-acquisition failures the source throws on
are environment conditions outside the algorithm.  Note the source performs
no validation of the thresholds whatsoever. -/
def applyCannyEdgeDetection (F : FloatOps) (buf : PixelBuffer) (low high : ℚ) : PixelBuffer :=
  { width := buf.width, height := buf.height,
    data := rgbaOfValues (cannyEdgeMap F buf low high) }

/-- The running maximum computed by the normalisation loop of
`applySobelEdgeDetection` (`if (magnitude[i] > maxMag) maxMag = magnitude[i]`,
starting from 0). -/
def sobelMaxMag (magnitude : List ℚ) : ℚ :=
  magnitude.foldl (fun acc m => if acc < m then m else acc) 0

/-- The per-pixel grayscale values written by `applySobelEdgeDetection`:
`Math.min(255, magnitude[i] / maxMag * 255)` stored into a clamped byte
array.  When every magnitude is 0 the source divides 0 by 0, producing NaN,
which the clamped store maps to 0; the `ℚ` convention `0 / 0 = 0` yields the
same stored byte. -/
def sobelValues (magnitude : List ℚ) (w h : ℕ) : List ℕ :=
  let maxMag := sobelMaxMag magnitude
  (List.range (w * h)).map (fun i =>
    clampedByte (min 255 (magnitude.getD i 0 / maxMag * 255)))

/-- The `applySobelEdgeDetection` entry point (SobelOnly variant): grayscale,
Sobel magnitude, linear normalisation against the maximum observed magnitude,
direct grayscale RGBA encoding.  No blur, no suppression, no thresholds. -/
def applySobelEdgeDetection (F : FloatOps) (buf : PixelBuffer) : PixelBuffer :=
  let gray := toGrayscale buf
  let grad := sobelGradient F gray buf.width buf.height
  { width := buf.width, height := buf.height,
    data := rgbaOfValues (sobelValues grad.1 buf.width buf.height) }

/-! ## WebGL renderer model (`src/utils/webglRenderer.ts`) -/

/-- GL commands issued by the renderer, at the granularity the claims speak
about.  The buffer-creation plumbing for one vertex attribute
(`createBuffer`, `bindBuffer`, `bufferData`, `enableVertexAttribArray`,
`vertexAttribPointer`) is collapsed into a single `setupAttrib` command. -/
inductive GLCmd where
  | clear
  | useProgram (program : ℕ)
  | setupAttrib (attribName : String)
  | uniform2f (uniformName : String) (x y : ℕ)
  | bindTexture (texture : ℕ)
  | uniform1i (uniformName : String) (v : ℕ)
  | drawArrays (vertexCount : ℕ)
  | viewport (w h : ℕ)
  | texImage2D (image : ℕ)
  | deleteTexture (texture : ℕ)
  | deleteProgram (program : ℕ)
deriving DecidableEq, Repr

/-- Effect / texture name string constants, as used by the source. -/
def effectOriginal : String := "original"

/-- Effect name for the grayscale fragment program. -/
def effectGrayscale : String := "grayscale"

/-- Effect name for the edge fragment program. -/
def effectEdge : String := "edge"

/-- Effect name for the invert fragment program. -/
def effectInvert : String := "invert"

/-- The texture-map key used by `render` (`this.textures.get("main")`). -/
def mainTextureName : String := "main"

/-- Attribute name of the quad vertex positions. -/
def attrPosition : String := "a_position"

/-- Attribute name of the quad texture coordinates. -/
def attrTexCoord : String := "a_texCoord"

/-- Uniform name of the resolution vector used by the edge effect. -/
def uniformResolution : String := "u_resolution"

/-- Uniform name of the texture sampler. -/
def uniformImage : String := "u_image"

/-- Renderer state: the `programs` and `textures` maps (modelled as
association lists looked up by `List.lookup`), the cached current program,
the canvas dimensions, and a counter supplying fresh texture handles. -/
structure WebGLRenderer where
  programs : List (String × ℕ)
  textures : List (String × ℕ)
  currentProgram : Option ℕ
  canvasWidth : ℕ
  canvasHeight : ℕ
  nextTexture : ℕ
deriving DecidableEq, Repr

/-- State after the constructor and the shader setup on the success path:
the vertex shader and all three fragment programs compile, so the program
map holds `grayscale`, `edge` and `invert` (a program that failed to compile
would simply be absent from the map). -/
def WebGLRenderer.init (w h : ℕ) : WebGLRenderer :=
  { programs := [(effectGrayscale, 0), (effectEdge, 1), (effectInvert, 2)],
    textures := [], currentProgram := none,
    canvasWidth := w, canvasHeight := h, nextTexture := 3 }

/-- Association-map update with `Map.set` semantics: the new binding replaces
any previous binding under the same key. -/
def mapSet (entries : List (String × ℕ)) (key : String) (v : ℕ) : List (String × ℕ) :=
  (key, v) :: entries.filter (fun e => e.1 ≠ key)

/-- Method `loadTexture(image, name)`: create a texture handle, upload the image,
store the handle under `name`.  The source throws only when
`gl.createTexture()` returns null; the model lets texture creation succeed
(a fresh handle from the counter), so the result is always `Except.ok` —
there is no other failure path in this method. -/
def WebGLRenderer.loadTexture (r : WebGLRenderer) (image : ℕ) (name : String) :
    Except String (WebGLRenderer × List GLCmd) :=
  Except.ok
    ({ r with textures := mapSet r.textures name r.nextTexture,
              nextTexture := r.nextTexture + 1 },
     [GLCmd.bindTexture r.nextTexture, GLCmd.texImage2D image])

/-- Method `render(effect)`: for `"original"`, clear and return.  Otherwise look the
program up; if it is absent, log a diagnostic and return without issuing any
GL command.  If it is present, bind it, set up the quad attributes, set the
resolution uniform for the edge effect, bind the `"main"` texture and its
sampler uniform when such a texture exists (and silently skip that step when
it does not), then clear and issue the 4-vertex triangle-strip draw.
Returns the new state, the GL command trace, and the `console.error` log. -/
def WebGLRenderer.render (r : WebGLRenderer) (effect : String) :
    WebGLRenderer × List GLCmd × List String :=
  if effect = effectOriginal then
    (r, [GLCmd.clear], [])
  else
    match r.programs.lookup effect with
    | none => (r, [], ["Shader program " ++ effect ++ " not found"])
    | some program =>
      let texCmds : List GLCmd :=
        match r.textures.lookup mainTextureName with
        | some t => [GLCmd.bindTexture t, GLCmd.uniform1i uniformImage 0]
        | none => []
      ({ r with currentProgram := some program },
       [GLCmd.useProgram program,
        GLCmd.setupAttrib attrPosition,
        GLCmd.setupAttrib attrTexCoord] ++
       (if effect = effectEdge then
          [GLCmd.uniform2f uniformResolution r.canvasWidth r.canvasHeight]
        else []) ++
       texCmds ++ [GLCmd.clear, GLCmd.drawArrays 4],
       [])

/-- Method `resize(width, height)`: update the canvas dimensions and the viewport. -/
def WebGLRenderer.resize (r : WebGLRenderer) (width height : ℕ) :
    WebGLRenderer × List GLCmd :=
  ({ r with canvasWidth := width, canvasHeight := height },
   [GLCmd.viewport width height])

/-- Method `dispose()`: delete every texture and program and clear both maps.
No disposed flag is recorded and no other field is touched. -/
def WebGLRenderer.dispose (r : WebGLRenderer) : WebGLRenderer × List GLCmd :=
  ({ r with textures := [], programs := [] },
   r.textures.map (fun e => GLCmd.deleteTexture e.2) ++
   r.programs.map (fun e => GLCmd.deleteProgram e.2))

/-! ## Derived notions used by the statements -/

/-- The three hysteresis labels: non-edge, weak, strong. -/
def IsLabel (v : ℕ) : Prop := v = 0 ∨ v = 128 ∨ v = 255

/-- Direct 8-adjacency of two grid positions (Chebyshev distance 1). -/
def adj8 (p q : ℕ × ℕ) : Prop :=
  p ≠ q ∧ ((p.1 : ℤ) - q.1).natAbs ≤ 1 ∧ ((p.2 : ℤ) - q.2).natAbs ≤ 1

instance instDecAdj8 (p q : ℕ × ℕ) : Decidable (adj8 p q) := by
  unfold adj8; infer_instance

/-- A uniform-colour buffer: every pixel carries the same four samples. -/
def IsUniform (buf : PixelBuffer) : Prop :=
  ∀ c < 4, ∀ i < buf.width * buf.height,
    buf.data.getD (4 * i + c) 0 = buf.data.getD c 0

instance instDecIsUniform (buf : PixelBuffer) : Decidable (IsUniform buf) := by
  unfold IsUniform; infer_instance

/-- Number of pixels carrying the strong label 255 in an edge map. -/
def strongCount (edges : List ℕ) : ℕ := edges.count 255

/-! ## Concrete instances used by witnesses and counterexamples -/

/-- One admissible model of the float operations: on every input actually
reached in the concrete computations below, `Math.sqrt` is applied only to 0
(where it returns 0, as `id` does), `Math.atan2` only to `(0, 0)` (where it
returns 0), and the `Math.PI` value is only ever multiplied by a zero
direction — so any choice agrees with the browser on those runs.  For the
SobelOnly witnesses, `sqrtQ := id` is nonnegative on nonnegative inputs and
vanishes only at 0, the two properties the theorems assume of `Math.sqrt`. -/
def F0 : FloatOps := { sqrtQ := id, atan2Q := fun _ _ => 0, piQ := 355 / 113 }

/-- A uniform 3×3 buffer (every pixel `(7, 7, 7, 255)`). -/
def uni3 : PixelBuffer :=
  { width := 3, height := 3,
    data := (List.replicate 9 7).flatMap (fun v => [v, v, v, 255]) }

/-- A 3×3 buffer with a black left column and white remainder: its Sobel
magnitude is non-zero at the centre pixel. -/
def buf3 : PixelBuffer :=
  { width := 3, height := 3,
    data := [0, 0, 0, 255, 255, 255, 255, 255, 255, 255, 255, 255,
             0, 0, 0, 255, 255, 255, 255, 255, 255, 255, 255, 255,
             0, 0, 0, 255, 255, 255, 255, 255, 255, 255, 255, 255] }

/-- A 5×3 magnitude field whose interior row holds a weak-weak-strong chain:
pixels `(1,1)` and `(2,1)` fall in the weak band `[100, 200)` and pixel
`(3,1)` is strong (`250 ≥ 200`).  Pixel `(1,1)` touches the strong pixel
only through the weak pixel `(2,1)`. -/
def chainMag : List ℚ := [0, 0, 0, 0, 0, 0, 150, 150, 250, 0, 0, 0, 0, 0, 0]

/-! ## Helper lemmas: list access -/

/-- Reading a just-written cell of a `Uint8ClampedArray`. -/
theorem getD_set_self {α : Type} [Inhabited α] (l : List α) {i : ℕ} (v d : α)
    (h : i < l.length) : (l.set i v).getD i d = v := by
  rw [List.getD_eq_getElem?_getD, List.getElem?_set_eq_of_lt _ h]
  rfl

/-- Writing one cell leaves every other cell unchanged. -/
theorem getD_set_ne {α : Type} (l : List α) {i j : ℕ} (v d : α)
    (h : i ≠ j) : (l.set i v).getD j d = l.getD j d := by
  rw [List.getD_eq_getElem?_getD, List.getElem?_set_ne h, ← List.getD_eq_getElem?_getD]

/-- A `getD` that differs from the default is an in-bounds read. -/
theorem lt_length_of_getD_ne {α : Type} (l : List α) {i : ℕ} (d : α)
    (h : l.getD i d ≠ d) : i < l.length := by
  by_contra hge
  exact h (by rw [List.getD_eq_getElem?_getD, List.getElem?_eq_none (Nat.le_of_not_lt hge)]; rfl)

/-- Reading a `List.range`-indexed map through `getD` evaluates the generating function. -/
theorem range_map_getD {α : Type} (f : ℕ → α) (d : α) {n i : ℕ} (hi : i < n) :
    ((List.range n).map f).getD i d = f i := by
  rw [List.getD_eq_getElem ((List.range n).map f) d
    (by simpa using hi)]
  simp

/-- Reading past the end through `getD` returns the default. -/
theorem getD_eq_default_of_le {α : Type} (l : List α) (d : α) {i : ℕ}
    (h : l.length ≤ i) : l.getD i d = d := by
  rw [List.getD_eq_getElem?_getD, List.getElem?_eq_none h]
  rfl

/-! ## Helper lemmas: the hysteresis edge-tracking fold -/

/-- Unfolding equation for `hystStep` with the `let` binding resolved. -/
theorem hystStep_def (w : ℕ) (e : List ℕ) (p : ℕ × ℕ) :
    hystStep w e p =
      if e.getD (posIdx w p) 0 = 128 then
        e.set (posIdx w p) (if hasStrongNeighbor e w p.1 p.2 then 255 else 0)
      else e := rfl

/-- One tracking step never changes the array length. -/
theorem hystStep_length (w : ℕ) (e : List ℕ) (p : ℕ × ℕ) :
    (hystStep w e p).length = e.length := by
  rw [hystStep_def]
  by_cases hguard : e.getD (posIdx w p) 0 = 128
  · rw [if_pos hguard, List.length_set]
  · rw [if_neg hguard]

/-- The tracking fold never changes the array length. -/
theorem hystFold_length (w : ℕ) (ps : List (ℕ × ℕ)) (e : List ℕ) :
    (ps.foldl (hystStep w) e).length = e.length := by
  induction ps generalizing e with
  | nil => rfl
  | cons p ps ih => rw [List.foldl_cons, ih, hystStep_length]

/-- A tracking step only writes its own pixel. -/
theorem hystStep_getD_ne (w : ℕ) (e : List ℕ) (p : ℕ × ℕ) {i : ℕ}
    (h : posIdx w p ≠ i) : (hystStep w e p).getD i 0 = e.getD i 0 := by
  rw [hystStep_def]
  by_cases hguard : e.getD (posIdx w p) 0 = 128
  · rw [if_pos hguard]
    exact getD_set_ne e _ 0 h
  · rw [if_neg hguard]

/-- The tracking fold leaves every pixel outside the visited set unchanged. -/
theorem hystFold_getD_ne (w : ℕ) (ps : List (ℕ × ℕ)) (e : List ℕ) {i : ℕ}
    (h : ∀ p ∈ ps, posIdx w p ≠ i) :
    (ps.foldl (hystStep w) e).getD i 0 = e.getD i 0 := by
  induction ps generalizing e with
  | nil => rfl
  | cons p ps ih =>
    rw [List.foldl_cons, ih _ (fun q hq => h q (List.mem_cons_of_mem p hq)),
      hystStep_getD_ne w e p (h p (List.mem_cons_self p ps))]

/-- Every cell of a tracking step result carries one of the three labels,
provided the input does. -/
theorem hystStep_label (w : ℕ) (e : List ℕ) (p : ℕ × ℕ)
    (he : ∀ i, IsLabel (e.getD i 0)) :
    ∀ i, IsLabel ((hystStep w e p).getD i 0) := by
  intro i
  by_cases hne : posIdx w p ≠ i
  · rw [hystStep_getD_ne w e p hne]; exact he i
  · push_neg at hne
    subst hne
    rw [hystStep_def]
    by_cases hguard : e.getD (posIdx w p) 0 = 128
    · have hlt : posIdx w p < e.length :=
        lt_length_of_getD_ne e 0 (by rw [hguard]; norm_num)
      rw [if_pos hguard, getD_set_self e _ 0 hlt]
      split
      · exact Or.inr (Or.inr rfl)
      · exact Or.inl rfl
    · rw [if_neg hguard]
      exact he _

/-- Every cell of the tracking fold result carries one of the three labels. -/
theorem hystFold_label (w : ℕ) (ps : List (ℕ × ℕ)) (e : List ℕ)
    (he : ∀ i, IsLabel (e.getD i 0)) :
    ∀ i, IsLabel ((ps.foldl (hystStep w) e).getD i 0) := by
  induction ps generalizing e with
  | nil => exact he
  | cons p ps ih => exact ih _ (hystStep_label w e p he)

/-- A weak label that survives the whole tracking fold was already weak before
it and belongs to a pixel the fold never visited: the pass rewrites every
visited weak pixel to 0 or 255 and never writes 128. -/
theorem hystFold_weak_survivor (w : ℕ) (ps : List (ℕ × ℕ)) (e : List ℕ) {i : ℕ}
    (h : (ps.foldl (hystStep w) e).getD i 0 = 128) :
    e.getD i 0 = 128 ∧ ∀ p ∈ ps, posIdx w p ≠ i := by
  induction ps generalizing e with
  | nil => exact ⟨h, by simp⟩
  | cons p ps ih =>
    rw [List.foldl_cons] at h
    obtain ⟨hstep, hrest⟩ := ih _ h
    by_cases hne : posIdx w p ≠ i
    · rw [hystStep_getD_ne w e p hne] at hstep
      exact ⟨hstep, fun q hq => by
        rcases List.mem_cons.mp hq with rfl | hq
        · exact hne
        · exact hrest q hq⟩
    · push_neg at hne
      exfalso
      subst hne
      rw [hystStep_def] at hstep
      by_cases hguard : e.getD (posIdx w p) 0 = 128
      · rw [if_pos hguard, getD_set_self e _ 0
          (lt_length_of_getD_ne e 0 (by rw [hguard]; norm_num))] at hstep
        split at hstep <;> omega
      · rw [if_neg hguard] at hstep
        exact hguard hstep

/-- One tracking step is pointwise monotone in the label order `0 < 128 < 255`
(numeric order on label values): lower thresholds can only keep labels at
least as high, and a strong neighbour in the lower state is strong in the
higher one. -/
theorem hystStep_mono (w : ℕ) (eA eB : List ℕ) (p : ℕ × ℕ)
    (hA : ∀ i, IsLabel (eA.getD i 0)) (hB : ∀ i, IsLabel (eB.getD i 0))
    (hle : ∀ i, eB.getD i 0 ≤ eA.getD i 0) (i : ℕ) :
    (hystStep w eB p).getD i 0 ≤ (hystStep w eA p).getD i 0 := by
  by_cases hne : posIdx w p ≠ i
  · rw [hystStep_getD_ne w eA p hne, hystStep_getD_ne w eB p hne]
    exact hle i
  push_neg at hne
  subst hne
  have hstrong : hasStrongNeighbor eB w p.1 p.2 = true →
      hasStrongNeighbor eA w p.1 p.2 = true := by
    intro hs
    rcases List.any_eq_true.mp hs with ⟨nidx, hmem, hv⟩
    refine List.any_eq_true.mpr ⟨nidx, hmem, ?_⟩
    have hv255 : eB.getD nidx 0 = 255 := of_decide_eq_true hv
    have hle255 : (255 : ℕ) ≤ eA.getD nidx 0 := by
      have := hle nidx
      omega
    have h255 : eA.getD nidx 0 = 255 := by
      rcases hA nidx with hc | hc | hc <;> omega
    exact decide_eq_true h255
  rw [hystStep_def, hystStep_def]
  by_cases hga : eA.getD (posIdx w p) 0 = 128
  · rw [if_pos hga,
      getD_set_self eA _ 0 (lt_length_of_getD_ne eA 0 (by rw [hga]; norm_num))]
    by_cases hgb : eB.getD (posIdx w p) 0 = 128
    · rw [if_pos hgb,
        getD_set_self eB _ 0 (lt_length_of_getD_ne eB 0 (by rw [hgb]; norm_num))]
      by_cases hsB : hasStrongNeighbor eB w p.1 p.2 = true
      · rw [if_pos hsB, if_pos (hstrong hsB)]
      · rw [if_neg hsB]
        exact Nat.zero_le _
    · rw [if_neg hgb]
      have h1 := hle (posIdx w p)
      rcases hB (posIdx w p) with hc | hc | hc
      · rw [hc]
        exact Nat.zero_le _
      · exact absurd hc hgb
      · omega
  · rw [if_neg hga]
    by_cases hgb : eB.getD (posIdx w p) 0 = 128
    · have h1 := hle (posIdx w p)
      have ha255 : eA.getD (posIdx w p) 0 = 255 := by
        rcases hA (posIdx w p) with hc | hc | hc <;> omega
      rw [if_pos hgb,
        getD_set_self eB _ 0 (lt_length_of_getD_ne eB 0 (by rw [hgb]; norm_num)),
        ha255]
      split <;> omega
    · rw [if_neg hgb]
      exact hle _

/-- The whole tracking fold is pointwise monotone in the label order. -/
theorem hystFold_mono (w : ℕ) (ps : List (ℕ × ℕ)) (eA eB : List ℕ)
    (hA : ∀ i, IsLabel (eA.getD i 0)) (hB : ∀ i, IsLabel (eB.getD i 0))
    (hle : ∀ i, eB.getD i 0 ≤ eA.getD i 0) (i : ℕ) :
    (ps.foldl (hystStep w) eB).getD i 0 ≤ (ps.foldl (hystStep w) eA).getD i 0 := by
  induction ps generalizing eA eB with
  | nil => exact hle i
  | cons p ps ih =>
    exact ih (hystStep w eA p) (hystStep w eB p)
      (hystStep_label w eA p hA) (hystStep_label w eB p hB)
      (hystStep_mono w eA eB p hA hB hle)

/-- Counting 255-cells is monotone under pointwise implication between two
equally long arrays. -/
theorem count_255_le (lA lB : List ℕ) (hlen : lB.length = lA.length)
    (h : ∀ i, lB.getD i 0 = 255 → lA.getD i 0 = 255) :
    lB.count 255 ≤ lA.count 255 := by
  induction lB generalizing lA with
  | nil => exact Nat.zero_le _
  | cons b bs ih =>
    cases lA with
    | nil => simp at hlen
    | cons a as =>
      have htail : bs.count 255 ≤ as.count 255 :=
        ih as (by simpa using hlen) (fun i => h (i + 1))
      have hhead : b = 255 → a = 255 := h 0
      rw [List.count_cons, List.count_cons]
      by_cases hb : b = 255
      · rw [hhead hb, hb]
        omega
      · have hbf : (b == 255) = false := beq_false_of_ne hb
        rw [hbf]
        have h0 : (if false = true then 1 else 0) = 0 := rfl
        rw [h0]
        have : (if (a == 255) = true then 1 else 0) ≤ 1 := by split <;> omega
        omega

/-! ## Helper lemmas: grid positions -/

/-- Row-major flat indices agree exactly when the coordinates do, as long as
both x-coordinates are inside the row. -/
theorem rowMajor_eq_iff {w x xq y yq : ℕ} (hx : x < w) (hxq : xq < w) :
    y * w + x = yq * w + xq ↔ x = xq ∧ y = yq := by
  constructor
  · intro heq
    have hmod : ∀ a b : ℕ, b < w → (a * w + b) % w = b := by
      intro a b hb
      rw [Nat.add_comm, Nat.add_mul_mod_self_right, Nat.mod_eq_of_lt hb]
    have hdiv : ∀ a b : ℕ, b < w → (a * w + b) / w = a := by
      intro a b hb
      rw [Nat.add_comm, Nat.add_mul_div_right _ _ (by omega : 0 < w),
        Nat.div_eq_of_lt hb, Nat.zero_add]
    constructor
    · rw [← hmod y x hx, ← hmod yq xq hxq, heq]
    · rw [← hdiv y x hx, ← hdiv yq xq hxq, heq]
  · rintro ⟨rfl, rfl⟩
    rfl

/-- Membership in the hysteresis scan list is exactly interiority. -/
theorem mem_hystPositions {w h : ℕ} {p : ℕ × ℕ} :
    p ∈ hystPositions w h ↔ isInterior w h p.1 p.2 := by
  unfold hystPositions isInterior
  constructor
  · intro hp
    rcases List.mem_flatMap.mp hp with ⟨y, hy, hx⟩
    rcases List.mem_map.mp hx with ⟨x, hxr, rfl⟩
    rcases List.mem_range'.mp hy with ⟨iy, hiy, rfl⟩
    rcases List.mem_range'.mp hxr with ⟨ix, hix, rfl⟩
    dsimp only
    omega
  · intro hint
    refine List.mem_flatMap.mpr ⟨p.2, ?_, List.mem_map.mpr ⟨p.1, ?_, rfl⟩⟩
    · exact List.mem_range'.mpr ⟨p.2 - 1, by omega, by omega⟩
    · exact List.mem_range'.mpr ⟨p.1 - 1, by omega, by omega⟩

/-- Interior pixels have in-bounds flat indices. -/
theorem posIdx_lt {w h : ℕ} {p : ℕ × ℕ} (hp : isInterior w h p.1 p.2) :
    posIdx w p < w * h := by
  obtain ⟨h1, h2, h3, h4⟩ := hp
  unfold posIdx
  calc p.2 * w + p.1 < p.2 * w + w := by omega
    _ = (p.2 + 1) * w := by ring
    _ ≤ h * w := Nat.mul_le_mul_right w (by omega)
    _ = w * h := Nat.mul_comm h w

/-- Pairwise lifting through `flatMap`: inner lists pairwise related and
cross-related blocks yield a pairwise related concatenation. -/
theorem pairwise_flatMap {α β : Type} {R : β → β → Prop} {l : List α} {f : α → List β}
    (h1 : ∀ a ∈ l, (f a).Pairwise R)
    (h2 : l.Pairwise (fun a b => ∀ x ∈ f a, ∀ y ∈ f b, R x y)) :
    (l.flatMap f).Pairwise R := by
  induction l with
  | nil => simp
  | cons a l ih =>
    rw [List.flatMap_cons, List.pairwise_append]
    refine ⟨h1 a (List.mem_cons_self a l),
      ih (fun b hb => h1 b (List.mem_cons_of_mem a hb)) (List.pairwise_cons.mp h2).2, ?_⟩
    intro x hx y hy
    rcases List.mem_flatMap.mp hy with ⟨b, hb, hyb⟩
    exact (List.pairwise_cons.mp h2).1 b hb x hx y hyb

/-- Distinct scan positions have distinct flat indices. -/
theorem hystPositions_pairwise (w h : ℕ) :
    (hystPositions w h).Pairwise (fun p q => posIdx w p ≠ posIdx w q) := by
  unfold hystPositions
  apply pairwise_flatMap
  · intro y hy
    rw [List.pairwise_map]
    refine List.Pairwise.imp_of_mem ?_ (List.nodup_range' 1 (w - 2))
    intro x xq hx hxq hne heq
    rcases List.mem_range'.mp hx with ⟨ix, hix, rfl⟩
    rcases List.mem_range'.mp hxq with ⟨ixq, hixq, rfl⟩
    exact hne ((rowMajor_eq_iff (by omega) (by omega)).mp heq).1
  · have hnd : (List.range' 1 (h - 2)).Pairwise (· ≠ ·) := List.nodup_range' 1 (h - 2)
    refine hnd.imp ?_
    intro y yq hne px hpx qx hqx heq
    rcases List.mem_map.mp hpx with ⟨x, hx, rfl⟩
    rcases List.mem_map.mp hqx with ⟨xq, hxq, rfl⟩
    rcases List.mem_range'.mp hx with ⟨ix, hix, rfl⟩
    rcases List.mem_range'.mp hxq with ⟨ixq, hixq, rfl⟩
    exact hne ((rowMajor_eq_iff (by omega) (by omega)).mp heq).2

/-! ## Helper lemmas: the individual stages -/

/-- Length of the double-threshold labelling. -/
theorem doubleThreshold_length (magnitude : List ℚ) (low high : ℚ) :
    (doubleThreshold magnitude low high).length = magnitude.length :=
  List.length_map _ _

/-- Cell values of the double-threshold labelling for in-bounds reads. -/
theorem doubleThreshold_getD (magnitude : List ℚ) (low high : ℚ) {i : ℕ}
    (hi : i < magnitude.length) :
    (doubleThreshold magnitude low high).getD i 0 =
      if high ≤ magnitude.getD i 0 then 255
      else if low ≤ magnitude.getD i 0 then 128 else 0 := by
  unfold doubleThreshold
  rw [List.getD_eq_getElem _ _ (by simpa using hi), List.getElem_map,
    List.getD_eq_getElem _ _ hi]

/-- Every cell of the double-threshold labelling carries one of the labels. -/
theorem doubleThreshold_label (magnitude : List ℚ) (low high : ℚ) (i : ℕ) :
    IsLabel ((doubleThreshold magnitude low high).getD i 0) := by
  by_cases hi : i < magnitude.length
  · rw [doubleThreshold_getD magnitude low high hi]
    split
    · exact Or.inr (Or.inr rfl)
    · split
      · exact Or.inr (Or.inl rfl)
      · exact Or.inl rfl
  · rw [getD_eq_default_of_le _ _ (by rw [doubleThreshold_length]; omega)]
    exact Or.inl rfl

/-- Raising the thresholds lowers every label (numerically). -/
theorem doubleThreshold_mono (magnitude : List ℚ) {low₁ high₁ low₂ high₂ : ℚ}
    (hlow : low₁ ≤ low₂) (hhigh : high₁ ≤ high₂) (i : ℕ) :
    (doubleThreshold magnitude low₂ high₂).getD i 0 ≤
      (doubleThreshold magnitude low₁ high₁).getD i 0 := by
  by_cases hi : i < magnitude.length
  · rw [doubleThreshold_getD magnitude low₁ high₁ hi,
      doubleThreshold_getD magnitude low₂ high₂ hi]
    set m := magnitude.getD i 0 with hm
    by_cases h2 : high₂ ≤ m
    · rw [if_pos h2, if_pos (le_trans hhigh h2)]
    · rw [if_neg h2]
      by_cases hl2 : low₂ ≤ m
      · rw [if_pos hl2]
        by_cases h1 : high₁ ≤ m
        · rw [if_pos h1]; omega
        · rw [if_neg h1, if_pos (le_trans hlow hl2)]
      · rw [if_neg hl2]
        split
        · omega
        · split <;> omega
  · rw [getD_eq_default_of_le _ _ (by rw [doubleThreshold_length]; omega),
      getD_eq_default_of_le _ _ (by rw [doubleThreshold_length]; omega)]

/-- Length of the hysteresis output. -/
theorem hysteresis_length (magnitude : List ℚ) (w h : ℕ) (low high : ℚ) :
    (hysteresis magnitude w h low high).length = magnitude.length := by
  unfold hysteresis
  rw [hystFold_length, doubleThreshold_length]

/-- Every cell of the hysteresis output carries one of the three labels. -/
theorem hysteresis_label (magnitude : List ℚ) (w h : ℕ) (low high : ℚ) (i : ℕ) :
    IsLabel ((hysteresis magnitude w h low high).getD i 0) :=
  hystFold_label w _ _ (doubleThreshold_label magnitude low high) i

/-- Length of the suppressed magnitude field. -/
theorem nonMaxSuppression_length (magnitude direction : List ℚ) (w h : ℕ) (piQ : ℚ) :
    (nonMaxSuppression magnitude direction w h piQ).length = w * h := by
  unfold nonMaxSuppression
  rw [List.length_map, List.length_range]

/-- Cell values of the suppressed field: `nmsAt` on the interior, 0 elsewhere. -/
theorem nonMaxSuppression_getD (magnitude direction : List ℚ) (w h : ℕ) (piQ : ℚ)
    {i : ℕ} (hi : i < w * h) :
    (nonMaxSuppression magnitude direction w h piQ).getD i 0 =
      if isInterior w h (i % w) (i / w) then
        nmsAt magnitude direction w piQ (i % w) (i / w)
      else 0 := by
  unfold nonMaxSuppression
  exact range_map_getD _ 0 hi

/-- Length of the Sobel magnitude field. -/
theorem sobelMagnitude_length (F : FloatOps) (gray : List ℕ) (w h : ℕ) :
    (sobelMagnitude F gray w h).length = w * h := by
  unfold sobelMagnitude
  rw [List.length_map, List.length_range]

/-- Cell values of the Sobel magnitude field for in-bounds reads. -/
theorem sobelMagnitude_getD (F : FloatOps) (gray : List ℕ) (w h : ℕ)
    {i : ℕ} (hi : i < w * h) :
    (sobelMagnitude F gray w h).getD i 0 =
      if isInterior w h (i % w) (i / w) then
        F.sqrtQ ((sobelGx gray w (i % w) (i / w) : ℚ) * (sobelGx gray w (i % w) (i / w) : ℚ) +
                 (sobelGy gray w (i % w) (i / w) : ℚ) * (sobelGy gray w (i % w) (i / w) : ℚ))
      else 0 := by
  unfold sobelMagnitude
  exact range_map_getD _ 0 hi

/-- Length of the RGBA expansion. -/
theorem rgbaOfValues_length (vals : List ℕ) :
    (rgbaOfValues vals).length = 4 * vals.length := by
  induction vals with
  | nil => rfl
  | cons v vs ih =>
    unfold rgbaOfValues at ih ⊢
    rw [List.flatMap_cons, List.length_append, ih]
    simp
    omega

/-- The four samples of pixel `i` in the RGBA expansion: three copies of the
value and an alpha of 255. -/
theorem rgbaOfValues_getD (vals : List ℕ) {i : ℕ} (hi : i < vals.length) :
    (rgbaOfValues vals).getD (4 * i) 0 = vals.getD i 0 ∧
    (rgbaOfValues vals).getD (4 * i + 1) 0 = vals.getD i 0 ∧
    (rgbaOfValues vals).getD (4 * i + 2) 0 = vals.getD i 0 ∧
    (rgbaOfValues vals).getD (4 * i + 3) 0 = 255 := by
  induction vals generalizing i with
  | nil => simp at hi
  | cons v vs ih =>
    cases i with
    | zero => exact ⟨rfl, rfl, rfl, rfl⟩
    | succ j =>
      have hj : j < vs.length := by simpa using hi
      have harith : ∀ c : ℕ, 4 * (j + 1) + c = 4 * j + c + 3 + 1 := by omega
      have hexp : rgbaOfValues (v :: vs) = v :: v :: v :: 255 :: rgbaOfValues vs := rfl
      refine ⟨?_, ?_, ?_, ?_⟩
      · rw [hexp, show 4 * (j + 1) = 4 * j + 3 + 1 by omega]
        simpa using (ih hj).1
      · rw [hexp, harith 1, show 4 * j + 1 + 3 + 1 = (4 * j + 1) + 3 + 1 by omega]
        simpa using (ih hj).2.1
      · rw [hexp, harith 2, show 4 * j + 2 + 3 + 1 = (4 * j + 2) + 3 + 1 by omega]
        simpa using (ih hj).2.2.1
      · rw [hexp, harith 3, show 4 * j + 3 + 3 + 1 = (4 * j + 3) + 3 + 1 by omega]
        simpa using (ih hj).2.2.2

/-- The clamped byte store never exceeds 255. -/
theorem clampedByte_le (q : ℚ) : clampedByte q ≤ 255 := by
  unfold clampedByte
  split
  · omega
  · split
    · omega
    · rename_i h0 h255
      push_neg at h0 h255
      have hfl : (⌊q⌋ : ℚ) ≤ q := Int.floor_le q
      have hfl255 : ⌊q⌋ < 255 := by
        have : (⌊q⌋ : ℚ) < 255 := lt_of_le_of_lt hfl h255
        exact_mod_cast this
      have hge : (0 : ℤ) ≤ ⌊q⌋ := Int.floor_nonneg.mpr (le_of_lt h0)
      have htn : (⌊q⌋).toNat < 255 := by omega
      dsimp only
      split
      · omega
      · split
        · omega
        · split <;> omega

/-- Storing a natural number at most 255 returns it unchanged. -/
theorem clampedByte_natCast (n : ℕ) (hn : n ≤ 255) : clampedByte (n : ℚ) = n := by
  unfold clampedByte
  by_cases h0 : (n : ℚ) ≤ 0
  · have : n = 0 := by exact_mod_cast le_antisymm h0 (by positivity)
    simp [h0, this]
  · rw [if_neg h0]
    by_cases h255 : (255 : ℚ) ≤ (n : ℚ)
    · have : (255 : ℕ) ≤ n := by exact_mod_cast h255
      rw [if_pos h255]
      omega
    · rw [if_neg h255]
      have hfl : ⌊(n : ℚ)⌋ = (n : ℤ) := Int.floor_natCast n
      have hr : (n : ℚ) - ⌊(n : ℚ)⌋ = 0 := by rw [hfl]; simp
      rw [hr]
      norm_num

/-- Length of the Canny edge map equals the pixel count. -/
theorem cannyEdgeMap_length (F : FloatOps) (buf : PixelBuffer) (low high : ℚ) :
    (cannyEdgeMap F buf low high).length = buf.width * buf.height := by
  unfold cannyEdgeMap
  rw [hysteresis_length, nonMaxSuppression_length]

/-! ## Helper lemmas: uniform buffers through the pipeline -/

/-- Clamped coordinates stay inside a non-empty axis. -/
theorem clampCoord_lt (v : ℤ) {size : ℕ} (hs : 0 < size) : clampCoord v size < size := by
  unfold clampCoord
  have h1 : min (max v 0) ((size : ℤ) - 1) ≤ (size : ℤ) - 1 := min_le_right _ _
  omega

/-- In-bounds row-major indices. -/
theorem rowMajor_lt {w h x y : ℕ} (hx : x < w) (hy : y < h) : y * w + x < w * h := by
  calc y * w + x < y * w + w := by omega
    _ = (y + 1) * w := by ring
    _ ≤ h * w := Nat.mul_le_mul_right w (by omega)
    _ = w * h := Nat.mul_comm h w

/-- Sum of a constant-valued map over a list. -/
theorem map_sum_const_nat {α : Type} (l : List α) (f : α → ℕ) (k : ℕ)
    (h : ∀ a ∈ l, f a = k) : (l.map f).sum = k * l.length := by
  induction l with
  | nil => simp
  | cons a l ih =>
    rw [List.map_cons, List.sum_cons, ih (fun b hb => h b (List.mem_cons_of_mem a hb)),
      h a (List.mem_cons_self a l)]
    simp
    ring

/-- Length of a `flatMap` whose blocks all have four entries. -/
theorem flatMap_quad_length (g : ℕ → List ℕ) (hg : ∀ i, (g i).length = 4) (n : ℕ) :
    ((List.range n).flatMap g).length = 4 * n := by
  rw [List.length_flatMap, map_sum_const_nat (List.range n) (List.length ∘ g) 4 (fun a _ => hg a),
    List.length_range]

/-- Reading sample `c` of pixel `i` out of a `flatMap` of four-entry blocks. -/
theorem flatMap_quad_getD (g : ℕ → List ℕ) (hg : ∀ i, (g i).length = 4) {n i c : ℕ}
    (hi : i < n) (hc : c < 4) :
    ((List.range n).flatMap g).getD (4 * i + c) 0 = (g i).getD c 0 := by
  induction n with
  | zero => omega
  | succ m ih =>
    rw [List.range_succ, List.flatMap_append]
    by_cases him : i < m
    · rw [List.getD_append _ _ _ _ (by rw [flatMap_quad_length g hg]; omega)]
      exact ih him
    · have hieq : i = m := by omega
      subst hieq
      rw [List.getD_append_right _ _ _ _ (by rw [flatMap_quad_length g hg]; omega),
        flatMap_quad_length g hg]
      have : 4 * i + c - 4 * i = c := by omega
      rw [this]
      simp

/-- Length of the blurred data array. -/
theorem gaussianBlur_length (buf : PixelBuffer) (radius : ℕ) :
    (gaussianBlur buf radius).data.length = 4 * (buf.width * buf.height) :=
  flatMap_quad_length (blurPixel buf.data buf.width buf.height radius) (fun _ => rfl) _

/-- Reading sample `c` of pixel `i` of the blurred buffer. -/
theorem gaussianBlur_getD (buf : PixelBuffer) (radius : ℕ) {i c : ℕ}
    (hi : i < buf.width * buf.height) (hc : c < 4) :
    (gaussianBlur buf radius).data.getD (4 * i + c) 0 =
      (blurPixel buf.data buf.width buf.height radius i).getD c 0 :=
  flatMap_quad_getD (blurPixel buf.data buf.width buf.height radius) (fun _ => rfl) hi hc

/-- On a uniform buffer every blur neighbourhood sums to `count` copies of
the pixel value of the corresponding channel. -/
theorem blurChannelSum_uniform (buf : PixelBuffer) (radius x y c : ℕ) (hc : c < 4)
    (hu : IsUniform buf) (hw : 0 < buf.width) (hh : 0 < buf.height) :
    blurChannelSum buf.data buf.width buf.height radius x y c =
      (((2 * radius + 1) * (2 * radius + 1) : ℕ) : ℚ) * (buf.data.getD c 0 : ℚ) := by
  unfold blurChannelSum
  have hterm : ∀ ky ∈ Finset.range (2 * radius + 1), ∀ kx ∈ Finset.range (2 * radius + 1),
      (buf.data.getD
        ((clampCoord ((y : ℤ) + ky - radius) buf.height * buf.width +
          clampCoord ((x : ℤ) + kx - radius) buf.width) * 4 + c) 0 : ℚ) =
        (buf.data.getD c 0 : ℚ) := by
    intro ky _ kx _
    have hpy := clampCoord_lt ((y : ℤ) + ky - radius) hh
    have hpx := clampCoord_lt ((x : ℤ) + kx - radius) hw
    have hpix : clampCoord ((y : ℤ) + ky - radius) buf.height * buf.width +
        clampCoord ((x : ℤ) + kx - radius) buf.width < buf.width * buf.height :=
      rowMajor_lt hpx hpy
    have harith : (clampCoord ((y : ℤ) + ky - radius) buf.height * buf.width +
        clampCoord ((x : ℤ) + kx - radius) buf.width) * 4 + c =
        4 * (clampCoord ((y : ℤ) + ky - radius) buf.height * buf.width +
          clampCoord ((x : ℤ) + kx - radius) buf.width) + c := by ring
    rw [harith]
    exact_mod_cast congrArg (Nat.cast : ℕ → ℚ) (hu c hc _ hpix)
  rw [Finset.sum_congr rfl (fun ky hky =>
    Finset.sum_congr rfl (fun kx hkx => hterm ky hky kx hkx))]
  rw [Finset.sum_const, Finset.sum_const, Finset.card_range, smul_smul, nsmul_eq_mul]

/-- The red channel of a blurred uniform buffer is the stored red value. -/
theorem gaussianBlur_uniform_r (buf : PixelBuffer) (radius : ℕ)
    (hu : IsUniform buf) (hw : 0 < buf.width) (hh : 0 < buf.height) {i : ℕ}
    (hi : i < buf.width * buf.height) :
    (gaussianBlur buf radius).data.getD (4 * i) 0 =
      clampedByte (buf.data.getD 0 0 : ℚ) := by
  have h := gaussianBlur_getD buf radius hi (show 0 < 4 by omega)
  rw [Nat.add_zero] at h
  rw [h]
  show clampedByte (blurChannelSum buf.data buf.width buf.height radius
      (i % buf.width) (i / buf.width) 0 /
      (((2 * radius + 1) * (2 * radius + 1) : ℕ) : ℚ)) = _
  rw [blurChannelSum_uniform buf radius _ _ 0 (by omega) hu hw hh,
    mul_div_cancel_left₀ _ (show (((2 * radius + 1) * (2 * radius + 1) : ℕ) : ℚ) ≠ 0 from
      Nat.cast_ne_zero.mpr (by positivity))]

/-- The green channel of a blurred uniform buffer is the stored green value. -/
theorem gaussianBlur_uniform_g (buf : PixelBuffer) (radius : ℕ)
    (hu : IsUniform buf) (hw : 0 < buf.width) (hh : 0 < buf.height) {i : ℕ}
    (hi : i < buf.width * buf.height) :
    (gaussianBlur buf radius).data.getD (4 * i + 1) 0 =
      clampedByte (buf.data.getD 1 0 : ℚ) := by
  rw [gaussianBlur_getD buf radius hi (show 1 < 4 by omega)]
  show clampedByte (blurChannelSum buf.data buf.width buf.height radius
      (i % buf.width) (i / buf.width) 1 /
      (((2 * radius + 1) * (2 * radius + 1) : ℕ) : ℚ)) = _
  rw [blurChannelSum_uniform buf radius _ _ 1 (by omega) hu hw hh,
    mul_div_cancel_left₀ _ (show (((2 * radius + 1) * (2 * radius + 1) : ℕ) : ℚ) ≠ 0 from
      Nat.cast_ne_zero.mpr (by positivity))]

/-- The blue channel of a blurred uniform buffer is the stored blue value. -/
theorem gaussianBlur_uniform_b (buf : PixelBuffer) (radius : ℕ)
    (hu : IsUniform buf) (hw : 0 < buf.width) (hh : 0 < buf.height) {i : ℕ}
    (hi : i < buf.width * buf.height) :
    (gaussianBlur buf radius).data.getD (4 * i + 2) 0 =
      clampedByte (buf.data.getD 2 0 : ℚ) := by
  rw [gaussianBlur_getD buf radius hi (show 2 < 4 by omega)]
  show clampedByte (blurChannelSum buf.data buf.width buf.height radius
      (i % buf.width) (i / buf.width) 2 /
      (((2 * radius + 1) * (2 * radius + 1) : ℕ) : ℚ)) = _
  rw [blurChannelSum_uniform buf radius _ _ 2 (by omega) hu hw hh,
    mul_div_cancel_left₀ _ (show (((2 * radius + 1) * (2 * radius + 1) : ℕ) : ℚ) ≠ 0 from
      Nat.cast_ne_zero.mpr (by positivity))]

/-- Length of the grayscale conversion. -/
theorem toGrayscale_length (buf : PixelBuffer) :
    (toGrayscale buf).length = buf.width * buf.height := by
  unfold toGrayscale
  rw [List.length_map, List.length_range]

/-- Cell values of the grayscale conversion for in-bounds reads. -/
theorem toGrayscale_getD (buf : PixelBuffer) {i : ℕ} (hi : i < buf.width * buf.height) :
    (toGrayscale buf).getD i 0 =
      clampedByte (0.299 * (buf.data.getD (4 * i) 0 : ℚ) +
                   0.587 * (buf.data.getD (4 * i + 1) 0 : ℚ) +
                   0.114 * (buf.data.getD (4 * i + 2) 0 : ℚ)) := by
  unfold toGrayscale
  exact range_map_getD _ 0 hi

/-- The grayscale image of a blurred uniform buffer is uniform. -/
theorem toGrayscale_blur_uniform (buf : PixelBuffer) (radius : ℕ)
    (hu : IsUniform buf) (hw : 0 < buf.width) (hh : 0 < buf.height) :
    ∀ i < buf.width * buf.height, ∀ j < buf.width * buf.height,
      (toGrayscale (gaussianBlur buf radius)).getD i 0 =
        (toGrayscale (gaussianBlur buf radius)).getD j 0 := by
  intro i hi j hj
  have hi2 : i < (gaussianBlur buf radius).width * (gaussianBlur buf radius).height := hi
  have hj2 : j < (gaussianBlur buf radius).width * (gaussianBlur buf radius).height := hj
  rw [toGrayscale_getD (gaussianBlur buf radius) hi2,
    toGrayscale_getD (gaussianBlur buf radius) hj2,
    gaussianBlur_uniform_r buf radius hu hw hh hi,
    gaussianBlur_uniform_r buf radius hu hw hh hj,
    gaussianBlur_uniform_g buf radius hu hw hh hi,
    gaussianBlur_uniform_g buf radius hu hw hh hj,
    gaussianBlur_uniform_b buf radius hu hw hh hi,
    gaussianBlur_uniform_b buf radius hu hw hh hj]

/-- The Sobel X response vanishes on a uniform grayscale image. -/
theorem sobelGx_uniform_zero (gray : List ℕ) (w h x y : ℕ) (hint : isInterior w h x y)
    (huni : ∀ i < w * h, ∀ j < w * h, gray.getD i 0 = gray.getD j 0) :
    sobelGx gray w x y = 0 := by
  obtain ⟨h1, h2, h3, h4⟩ := hint
  have h0 : 0 < w * h := Nat.mul_pos (by omega) (by omega)
  have hval : ∀ ky < 3, ∀ kx < 3,
      gray.getD ((y + ky - 1) * w + (x + kx - 1)) 0 = gray.getD 0 0 := by
    intro ky hky kx hkx
    exact huni _ (rowMajor_lt (by omega) (by omega)) 0 h0
  unfold sobelGx
  rw [Finset.sum_congr rfl (fun ky hky => Finset.sum_congr rfl (fun kx hkx => by
    rw [hval ky (Finset.mem_range.mp hky) kx (Finset.mem_range.mp hkx)]))]
  simp only [← Finset.mul_sum]
  have hker : ∑ ky ∈ Finset.range 3, ∑ kx ∈ Finset.range 3,
      sobelXKernel.getD (ky * 3 + kx) 0 = 0 := by decide
  rw [hker, mul_zero]

/-- The Sobel Y response vanishes on a uniform grayscale image. -/
theorem sobelGy_uniform_zero (gray : List ℕ) (w h x y : ℕ) (hint : isInterior w h x y)
    (huni : ∀ i < w * h, ∀ j < w * h, gray.getD i 0 = gray.getD j 0) :
    sobelGy gray w x y = 0 := by
  obtain ⟨h1, h2, h3, h4⟩ := hint
  have h0 : 0 < w * h := Nat.mul_pos (by omega) (by omega)
  have hval : ∀ ky < 3, ∀ kx < 3,
      gray.getD ((y + ky - 1) * w + (x + kx - 1)) 0 = gray.getD 0 0 := by
    intro ky hky kx hkx
    exact huni _ (rowMajor_lt (by omega) (by omega)) 0 h0
  unfold sobelGy
  rw [Finset.sum_congr rfl (fun ky hky => Finset.sum_congr rfl (fun kx hkx => by
    rw [hval ky (Finset.mem_range.mp hky) kx (Finset.mem_range.mp hkx)]))]
  simp only [← Finset.mul_sum]
  have hker : ∑ ky ∈ Finset.range 3, ∑ kx ∈ Finset.range 3,
      sobelYKernel.getD (ky * 3 + kx) 0 = 0 := by decide
  rw [hker, mul_zero]

/-- The Sobel magnitude field of a uniform grayscale image is all zero,
provided the square-root model sends 0 to 0 (as `Math.sqrt` does). -/
theorem sobelMagnitude_uniform_zero (F : FloatOps) (gray : List ℕ) (w h : ℕ)
    (hs : F.sqrtQ 0 = 0)
    (huni : ∀ i < w * h, ∀ j < w * h, gray.getD i 0 = gray.getD j 0) :
    ∀ i, (sobelMagnitude F gray w h).getD i 0 = 0 := by
  intro i
  by_cases hi : i < w * h
  · rw [sobelMagnitude_getD F gray w h hi]
    by_cases hint : isInterior w h (i % w) (i / w)
    · rw [if_pos hint, sobelGx_uniform_zero gray w h _ _ hint huni,
        sobelGy_uniform_zero gray w h _ _ hint huni]
      norm_num
      exact hs
    · rw [if_neg hint]
  · exact getD_eq_default_of_le _ _ (by rw [sobelMagnitude_length]; omega)

/-- Non-maximum suppression of a zero magnitude cell yields zero, whatever
the direction says. -/
theorem nmsAt_zero (magnitude direction : List ℚ) (w : ℕ) (piQ : ℚ) (x y : ℕ)
    (hm : magnitude.getD (y * w + x) 0 = 0) :
    nmsAt magnitude direction w piQ x y = 0 := by
  unfold nmsAt
  dsimp only
  rw [hm]
  exact ite_self 0

/-- Non-maximum suppression of an all-zero magnitude field is all zero. -/
theorem nonMaxSuppression_zero (magnitude direction : List ℚ) (w h : ℕ) (piQ : ℚ)
    (hm : ∀ i, magnitude.getD i 0 = 0) :
    ∀ i, (nonMaxSuppression magnitude direction w h piQ).getD i 0 = 0 := by
  intro i
  by_cases hi : i < w * h
  · rw [nonMaxSuppression_getD magnitude direction w h piQ hi]
    by_cases hint : isInterior w h (i % w) (i / w)
    · rw [if_pos hint]
      exact nmsAt_zero magnitude direction w piQ _ _ (hm _)
    · rw [if_neg hint]
  · exact getD_eq_default_of_le _ _ (by rw [nonMaxSuppression_length]; omega)

/-- Double threshold of an all-zero field with positive thresholds labels
every pixel 0. -/
theorem doubleThreshold_zero_of_pos (magnitude : List ℚ) (low high : ℚ)
    (hm : ∀ i, magnitude.getD i 0 = 0) (hlow : 0 < low) (hhigh : 0 < high) :
    ∀ i, (doubleThreshold magnitude low high).getD i 0 = 0 := by
  intro i
  by_cases hi : i < magnitude.length
  · rw [doubleThreshold_getD magnitude low high hi, hm i,
      if_neg (by linarith), if_neg (by linarith)]
  · exact getD_eq_default_of_le _ _ (by rw [doubleThreshold_length]; omega)

/-- Double threshold of an all-zero field with a non-positive high threshold
labels every in-bounds pixel strong. -/
theorem doubleThreshold_zero_strong (magnitude : List ℚ) (low high : ℚ)
    (hm : ∀ i, magnitude.getD i 0 = 0) (hhigh : high ≤ 0) :
    ∀ i < magnitude.length, (doubleThreshold magnitude low high).getD i 0 = 255 := by
  intro i hi
  rw [doubleThreshold_getD magnitude low high hi, hm i, if_pos hhigh]

/-- The edge-tracking fold is the identity when no pixel is weak. -/
theorem hystFold_no_weak (w : ℕ) (ps : List (ℕ × ℕ)) (e : List ℕ)
    (h : ∀ i, e.getD i 0 ≠ 128) : ps.foldl (hystStep w) e = e := by
  induction ps with
  | nil => rfl
  | cons p ps ih =>
    rw [List.foldl_cons, hystStep_def, if_neg (h _), ih]

/-- Unfolding equation for the Canny stage chain. -/
theorem cannyEdgeMap_def (F : FloatOps) (buf : PixelBuffer) (low high : ℚ) :
    cannyEdgeMap F buf low high =
      hysteresis
        (nonMaxSuppression
          (sobelMagnitude F (toGrayscale (gaussianBlur buf 2)) buf.width buf.height)
          (sobelDirection F (toGrayscale (gaussianBlur buf 2)) buf.width buf.height)
          buf.width buf.height F.piQ)
        buf.width buf.height low high := rfl

/-- The suppressed magnitude field of a uniform buffer is all zero. -/
theorem cannySuppressed_uniform_zero (F : FloatOps) (buf : PixelBuffer)
    (hs : F.sqrtQ 0 = 0) (hu : IsUniform buf)
    (hw : 0 < buf.width) (hh : 0 < buf.height) :
    ∀ i, (nonMaxSuppression
        (sobelMagnitude F (toGrayscale (gaussianBlur buf 2)) buf.width buf.height)
        (sobelDirection F (toGrayscale (gaussianBlur buf 2)) buf.width buf.height)
        buf.width buf.height F.piQ).getD i 0 = 0 :=
  nonMaxSuppression_zero _ _ _ _ _
    (sobelMagnitude_uniform_zero F _ _ _ hs (toGrayscale_blur_uniform buf 2 hu hw hh))

/-- Every in-bounds interior index is visited by the scan under its own
flat index. -/
theorem interior_mem_positions {w h i : ℕ} (_ : i < w * h)
    (hint : isInterior w h (i % w) (i / w)) :
    (i % w, i / w) ∈ hystPositions w h ∧ posIdx w (i % w, i / w) = i := by
  refine ⟨mem_hystPositions.mpr hint, ?_⟩
  unfold posIdx
  dsimp only
  rw [Nat.mul_comm]
  exact Nat.div_add_mod i w

/-- The grayscale image of a uniform buffer (no blur) is uniform. -/
theorem toGrayscale_uniform (buf : PixelBuffer) (hu : IsUniform buf) :
    ∀ i < buf.width * buf.height, ∀ j < buf.width * buf.height,
      (toGrayscale buf).getD i 0 = (toGrayscale buf).getD j 0 := by
  intro i hi j hj
  have hr1 := hu 0 (by omega) i hi
  have hg1 := hu 1 (by omega) i hi
  have hb1 := hu 2 (by omega) i hi
  have hr2 := hu 0 (by omega) j hj
  have hg2 := hu 1 (by omega) j hj
  have hb2 := hu 2 (by omega) j hj
  rw [Nat.add_zero] at hr1 hr2
  rw [toGrayscale_getD buf hi, toGrayscale_getD buf hj, hr1, hg1, hb1, hr2, hg2, hb2]

/-! ## Helper lemmas: the SobelOnly normalisation -/

/-- The running maximum is at least its seed. -/
theorem runmax_init_le (l : List ℚ) (a : ℚ) :
    a ≤ l.foldl (fun acc m => if acc < m then m else acc) a := by
  induction l generalizing a with
  | nil => exact le_refl a
  | cons x l ih =>
    rw [List.foldl_cons]
    refine le_trans ?_ (ih _)
    split
    · exact le_of_lt (by assumption)
    · exact le_refl a

/-- The running maximum dominates every list element. -/
theorem runmax_mem_le (l : List ℚ) (a : ℚ) {x : ℚ} (hx : x ∈ l) :
    x ≤ l.foldl (fun acc m => if acc < m then m else acc) a := by
  induction l generalizing a with
  | nil => simp at hx
  | cons y l ih =>
    rw [List.foldl_cons]
    rcases List.mem_cons.mp hx with rfl | hx
    · refine le_trans ?_ (runmax_init_le l _)
      split
      · exact le_refl x
      · exact le_of_not_lt (by assumption)
    · exact ih _ hx

/-- The running maximum is the seed or an element of the list. -/
theorem runmax_eq_init_or_mem (l : List ℚ) (a : ℚ) :
    l.foldl (fun acc m => if acc < m then m else acc) a = a ∨
      l.foldl (fun acc m => if acc < m then m else acc) a ∈ l := by
  induction l generalizing a with
  | nil => exact Or.inl rfl
  | cons x l ih =>
    rw [List.foldl_cons]
    rcases ih (if a < x then x else a) with heq | hmem
    · by_cases hax : a < x
      · rw [if_pos hax] at heq
        rw [if_pos hax, heq]
        exact Or.inr (List.mem_cons_self x l)
      · rw [if_neg hax] at heq
        rw [if_neg hax, heq]
        exact Or.inl rfl
    · exact Or.inr (List.mem_cons_of_mem x hmem)

/-- Sobel magnitudes are nonnegative when the square-root model is
nonnegative on nonnegative inputs (as `Math.sqrt` is away from NaN). -/
theorem sobelMagnitude_nonneg (F : FloatOps) (gray : List ℕ) (w h : ℕ)
    (hsq : ∀ q, 0 ≤ q → 0 ≤ F.sqrtQ q) :
    ∀ x ∈ sobelMagnitude F gray w h, 0 ≤ x := by
  intro x hx
  unfold sobelMagnitude at hx
  rcases List.mem_map.mp hx with ⟨i, _, rfl⟩
  dsimp only
  split
  · exact hsq _ (add_nonneg (mul_self_nonneg _) (mul_self_nonneg _))
  · exact le_refl 0

/-- Length of the SobelOnly value list. -/
theorem sobelValues_length (magnitude : List ℚ) (w h : ℕ) :
    (sobelValues magnitude w h).length = w * h := by
  unfold sobelValues
  rw [List.length_map, List.length_range]

/-- Cell values of the SobelOnly value list. -/
theorem sobelValues_getD (magnitude : List ℚ) (w h : ℕ) {i : ℕ} (hi : i < w * h) :
    (sobelValues magnitude w h).getD i 0 =
      clampedByte (min 255 (magnitude.getD i 0 / sobelMaxMag magnitude * 255)) := by
  unfold sobelValues
  exact range_map_getD _ 0 hi

/-- Unfolding equation for the SobelOnly entry point. -/
theorem applySobelEdgeDetection_def (F : FloatOps) (buf : PixelBuffer) :
    applySobelEdgeDetection F buf =
      { width := buf.width, height := buf.height,
        data := rgbaOfValues (sobelValues
          (sobelMagnitude F (toGrayscale buf) buf.width buf.height)
          buf.width buf.height) } := rfl

/-- Every RGBA expansion entry of a byte-valued list is at most 255. -/
theorem rgbaOfValues_getD_le (vals : List ℕ) (hv : ∀ v ∈ vals, v ≤ 255) (n : ℕ) :
    (rgbaOfValues vals).getD n 0 ≤ 255 := by
  by_cases hn : n < (rgbaOfValues vals).length
  · rw [List.getD_eq_getElem _ _ hn]
    have hmem : (rgbaOfValues vals)[n] ∈ rgbaOfValues vals := List.getElem_mem hn
    rcases List.mem_flatMap.mp hmem with ⟨v, hvmem, hin⟩
    simp only [List.mem_cons, List.not_mem_nil, or_false] at hin
    rcases hin with h | h | h | h
    · rw [h]; exact hv v hvmem
    · rw [h]; exact hv v hvmem
    · rw [h]; exact hv v hvmem
    · rw [h]
  · rw [getD_eq_default_of_le _ _ (by omega)]
    omega

/-! ## Claim theorems -/

/-- C4: for every float model, input buffer and thresholds, the Canny output
buffer has the width and height of its input, and each output pixel has
equal R, G and B samples with alpha 255. -/
theorem canny_output_dims_and_grayscale (F : FloatOps) (buf : PixelBuffer) (low high : ℚ) :
    (applyCannyEdgeDetection F buf low high).width = buf.width ∧
    (applyCannyEdgeDetection F buf low high).height = buf.height ∧
    ∀ i < buf.width * buf.height,
      (applyCannyEdgeDetection F buf low high).data.getD (4 * i) 0 =
        (applyCannyEdgeDetection F buf low high).data.getD (4 * i + 1) 0 ∧
      (applyCannyEdgeDetection F buf low high).data.getD (4 * i + 1) 0 =
        (applyCannyEdgeDetection F buf low high).data.getD (4 * i + 2) 0 ∧
      (applyCannyEdgeDetection F buf low high).data.getD (4 * i + 3) 0 = 255 := by
  refine ⟨rfl, rfl, ?_⟩
  intro i hi
  have hlen : i < (cannyEdgeMap F buf low high).length := by
    rw [cannyEdgeMap_length]
    exact hi
  obtain ⟨h0, h1, h2, h3⟩ := rgbaOfValues_getD (cannyEdgeMap F buf low high) hlen
  exact ⟨by rw [show (applyCannyEdgeDetection F buf low high).data =
      rgbaOfValues (cannyEdgeMap F buf low high) from rfl, h0, h1],
    by rw [show (applyCannyEdgeDetection F buf low high).data =
      rgbaOfValues (cannyEdgeMap F buf low high) from rfl, h1, h2],
    by rw [show (applyCannyEdgeDetection F buf low high).data =
      rgbaOfValues (cannyEdgeMap F buf low high) from rfl, h3]⟩

/-- Witness for C4 at a concrete buffer, thresholds and pixel. -/
theorem canny_output_dims_and_grayscale_witness :
    (applyCannyEdgeDetection F0 uni3 50 150).width = uni3.width ∧
    (applyCannyEdgeDetection F0 uni3 50 150).data.getD (4 * 0 + 3) 0 = 255 :=
  ⟨(canny_output_dims_and_grayscale F0 uni3 50 150).1,
    ((canny_output_dims_and_grayscale F0 uni3 50 150).2.2 0 (by decide)).2.2⟩

/-- C2 counterexample: with `lowThreshold = 0` and `highThreshold = 1` (both
inside `[0, 255]`), the edge map of a uniform 3×3 buffer retains the weak
label 128 at the border pixel `(0, 0)` — the tracking pass only rewrites
interior pixels, while the double threshold labels the zero-magnitude border
weak because `0 ≥ 0`.  The float model `F0` agrees with the browser on this
run: `Math.sqrt` is only applied to 0 and `Math.atan2` only to `(0, 0)`. -/
theorem canny_edge_map_retains_weak_at_zero_low :
    (cannyEdgeMap F0 uni3 0 1).getD 0 0 = 128 ∧
    (applyCannyEdgeDetection F0 uni3 0 1).data.getD 0 0 = 128 := by
  have hsup := cannySuppressed_uniform_zero F0 uni3 rfl (by decide) (by decide) (by decide)
  set sup := nonMaxSuppression
    (sobelMagnitude F0 (toGrayscale (gaussianBlur uni3 2)) uni3.width uni3.height)
    (sobelDirection F0 (toGrayscale (gaussianBlur uni3 2)) uni3.width uni3.height)
    uni3.width uni3.height F0.piQ with hsupdef
  have hlen : sup.length = uni3.width * uni3.height := by
    rw [hsupdef]
    exact nonMaxSuppression_length _ _ _ _ _
  have hlab : ∀ i < uni3.width * uni3.height, (doubleThreshold sup 0 1).getD i 0 = 128 := by
    intro i hi
    rw [doubleThreshold_getD _ _ _ (by omega), hsup i, if_neg (by norm_num),
      if_pos (le_refl 0)]
  have hpos : hystPositions uni3.width uni3.height = [(1, 1)] := by decide
  have hmain : (cannyEdgeMap F0 uni3 0 1).getD 0 0 = 128 := by
    rw [cannyEdgeMap_def, ← hsupdef]
    unfold hysteresis
    rw [hpos, List.foldl_cons, List.foldl_nil,
      hystStep_getD_ne _ _ (1, 1) (by decide)]
    exact hlab 0 (by decide)
  refine ⟨hmain, ?_⟩
  have hlt : (0 : ℕ) < (cannyEdgeMap F0 uni3 0 1).length := by
    rw [cannyEdgeMap_length]
    decide
  have h4 := (rgbaOfValues_getD (cannyEdgeMap F0 uni3 0 1) hlt).1
  simp only [Nat.mul_zero] at h4
  show (rgbaOfValues (cannyEdgeMap F0 uni3 0 1)).getD 0 0 = 128
  rw [h4, hmain]

/-- C2 (amended): the hysteresis output always takes values in the label set
`{0, 128, 255}`, and whenever `lowThreshold ≥ 1` it is binary: every pixel
of the returned edge map (and of the final RGBA output) is 0 or 255.  The
claim as frozen fails only at `lowThreshold = 0`, where the zero-magnitude
border (never visited by the tracking pass) is labelled weak and keeps 128. -/
theorem canny_edge_map_binary_when_low_positive (F : FloatOps) (buf : PixelBuffer)
    (low high : ℚ) (hlow : 1 ≤ low) :
    ∀ i < buf.width * buf.height,
      ((cannyEdgeMap F buf low high).getD i 0 = 0 ∨
        (cannyEdgeMap F buf low high).getD i 0 = 255) ∧
      ((applyCannyEdgeDetection F buf low high).data.getD (4 * i) 0 = 0 ∨
        (applyCannyEdgeDetection F buf low high).data.getD (4 * i) 0 = 255) := by
  intro i hi
  have hmain : (cannyEdgeMap F buf low high).getD i 0 = 0 ∨
      (cannyEdgeMap F buf low high).getD i 0 = 255 := by
    rw [cannyEdgeMap_def]
    set sup := nonMaxSuppression
      (sobelMagnitude F (toGrayscale (gaussianBlur buf 2)) buf.width buf.height)
      (sobelDirection F (toGrayscale (gaussianBlur buf 2)) buf.width buf.height)
      buf.width buf.height F.piQ with hsupdef
    have hlen : sup.length = buf.width * buf.height := by
      rw [hsupdef]
      exact nonMaxSuppression_length _ _ _ _ _
    rcases hysteresis_label sup buf.width buf.height low high i with h0 | h128 | h255
    · exact Or.inl h0
    · exfalso
      unfold hysteresis at h128
      obtain ⟨hinit, huntouched⟩ := hystFold_weak_survivor buf.width _ _ h128
      by_cases hint : isInterior buf.width buf.height (i % buf.width) (i / buf.width)
      · obtain ⟨hmem, hidx⟩ := interior_mem_positions hi hint
        exact huntouched _ hmem hidx
      · have hm0 : sup.getD i 0 = 0 := by
          rw [hsupdef, nonMaxSuppression_getD _ _ _ _ _ hi, if_neg hint]
        rw [doubleThreshold_getD _ _ _ (by omega), hm0] at hinit
        split at hinit
        · omega
        · split at hinit
          · linarith
          · omega
    · exact Or.inr h255
  refine ⟨hmain, ?_⟩
  have hlen2 : i < (cannyEdgeMap F buf low high).length := by
    rw [cannyEdgeMap_length]
    exact hi
  have h4 := (rgbaOfValues_getD (cannyEdgeMap F buf low high) hlen2).1
  show (rgbaOfValues (cannyEdgeMap F buf low high)).getD (4 * i) 0 = 0 ∨
    (rgbaOfValues (cannyEdgeMap F buf low high)).getD (4 * i) 0 = 255
  rw [h4]
  exact hmain

/-- Witness for the amended C2 at a concrete run. -/
theorem canny_edge_map_binary_when_low_positive_witness :
    ((cannyEdgeMap F0 uni3 1 1).getD 0 0 = 0 ∨ (cannyEdgeMap F0 uni3 1 1).getD 0 0 = 255) ∧
    ((applyCannyEdgeDetection F0 uni3 1 1).data.getD (4 * 0) 0 = 0 ∨
      (applyCannyEdgeDetection F0 uni3 1 1).data.getD (4 * 0) 0 = 255) :=
  canny_edge_map_binary_when_low_positive F0 uni3 1 1 (by norm_num) 0 (by decide)

/-- C3 counterexample: with `lowThreshold = 200 > highThreshold = 100` the
pipeline signals no error and withholds no output: the call runs every stage
and returns the complete 3×3 RGBA buffer (here all black, since the uniform
input has no gradient).  There is no validation anywhere in the source. -/
theorem canny_runs_fully_with_inverted_thresholds :
    (100 : ℚ) < 200 ∧
    applyCannyEdgeDetection F0 uni3 200 100 =
      { width := 3, height := 3, data := rgbaOfValues (List.replicate 9 0) } := by
  refine ⟨by norm_num, ?_⟩
  have hsup := cannySuppressed_uniform_zero F0 uni3 rfl (by decide) (by decide) (by decide)
  set sup := nonMaxSuppression
    (sobelMagnitude F0 (toGrayscale (gaussianBlur uni3 2)) uni3.width uni3.height)
    (sobelDirection F0 (toGrayscale (gaussianBlur uni3 2)) uni3.width uni3.height)
    uni3.width uni3.height F0.piQ with hsupdef
  have hlen : sup.length = uni3.width * uni3.height := by
    rw [hsupdef]
    exact nonMaxSuppression_length _ _ _ _ _
  have hzero := doubleThreshold_zero_of_pos sup 200 100 hsup (by norm_num) (by norm_num)
  have hnw : ∀ j, (doubleThreshold sup 200 100).getD j 0 ≠ 128 := by
    intro j
    rw [hzero j]
    omega
  have hmap : cannyEdgeMap F0 uni3 200 100 = List.replicate 9 0 := by
    rw [cannyEdgeMap_def, ← hsupdef]
    unfold hysteresis
    rw [hystFold_no_weak _ _ _ hnw]
    refine List.eq_replicate_iff.mpr ⟨by rw [doubleThreshold_length, hlen]; rfl, ?_⟩
    intro b hb
    rcases List.mem_iff_getElem.mp hb with ⟨j, hj, rfl⟩
    rw [← List.getD_eq_getElem _ 0 hj]
    exact hzero j
  show ({ width := uni3.width, height := uni3.height,
          data := rgbaOfValues (cannyEdgeMap F0 uni3 200 100) } : PixelBuffer) = _
  rw [hmap]
  rfl

/-- C3 (amended): the implementation neither validates nor reports the
threshold ordering: every call runs all five stages and returns a complete
buffer, and a call with `low > high` returns exactly the output of the
clamped configuration `(high, high)` — the weak band `[low, high)` is empty
because the strong test `m ≥ high` is applied first. -/
theorem canny_inverted_thresholds_behave_as_clamped (F : FloatOps) (buf : PixelBuffer)
    (low high : ℚ) (hle : high ≤ low) :
    applyCannyEdgeDetection F buf low high = applyCannyEdgeDetection F buf high high := by
  have hdt : ∀ mag : List ℚ, doubleThreshold mag low high = doubleThreshold mag high high := by
    intro mag
    unfold doubleThreshold
    apply List.map_congr_left
    intro m _
    by_cases hm : high ≤ m
    · rw [if_pos hm, if_pos hm]
    · have hl : ¬ low ≤ m := fun hc => hm (le_trans hle hc)
      rw [if_neg hm, if_neg hm, if_neg hl, if_neg hm]
  have hmap : cannyEdgeMap F buf low high = cannyEdgeMap F buf high high := by
    rw [cannyEdgeMap_def, cannyEdgeMap_def]
    unfold hysteresis
    rw [hdt]
  show ({ width := buf.width, height := buf.height,
          data := rgbaOfValues (cannyEdgeMap F buf low high) } : PixelBuffer) = _
  rw [hmap]
  rfl

/-- Witness for the amended C3 at a concrete inverted-threshold run. -/
theorem canny_inverted_thresholds_behave_as_clamped_witness :
    applyCannyEdgeDetection F0 uni3 200 100 = applyCannyEdgeDetection F0 uni3 100 100 :=
  canny_inverted_thresholds_behave_as_clamped F0 uni3 200 100 (by norm_num)

/-- C7 counterexample: a uniform buffer does NOT always produce an all-zero
edge map: with the admissible threshold pair `(0, 0)` every pixel (all of
zero magnitude) satisfies `magnitude ≥ highThreshold`, so the whole map
comes out strong (255), not zero. -/
theorem canny_uniform_zero_thresholds_all_strong :
    (cannyEdgeMap F0 uni3 0 0).getD 0 0 = 255 := by
  have hsup := cannySuppressed_uniform_zero F0 uni3 rfl (by decide) (by decide) (by decide)
  set sup := nonMaxSuppression
    (sobelMagnitude F0 (toGrayscale (gaussianBlur uni3 2)) uni3.width uni3.height)
    (sobelDirection F0 (toGrayscale (gaussianBlur uni3 2)) uni3.width uni3.height)
    uni3.width uni3.height F0.piQ with hsupdef
  have hlen : sup.length = uni3.width * uni3.height := by
    rw [hsupdef]
    exact nonMaxSuppression_length _ _ _ _ _
  have hlab := doubleThreshold_zero_strong sup 0 0 hsup (le_refl 0)
  have hnw : ∀ j, (doubleThreshold sup 0 0).getD j 0 ≠ 128 := by
    intro j
    by_cases hj : j < sup.length
    · rw [hlab j hj]
      omega
    · rw [getD_eq_default_of_le _ _ (by rw [doubleThreshold_length]; omega)]
      omega
  rw [cannyEdgeMap_def, ← hsupdef]
  unfold hysteresis
  rw [hystFold_no_weak _ _ _ hnw]
  exact hlab 0 (by rw [hlen]; decide)

/-- C7 (amended): a uniform-colour buffer produces an all-zero edge map for
every threshold pair with `1 ≤ low ≤ high` (the frozen claim fails at the
degenerate pairs with `low = 0` or `high = 0`, where the zero-magnitude
pixels land in the weak or strong band). -/
theorem canny_uniform_buffer_zero_edge_map (F : FloatOps) (buf : PixelBuffer)
    (low high : ℚ) (hs : F.sqrtQ 0 = 0) (hu : IsUniform buf)
    (hlow : 1 ≤ low) (hlh : low ≤ high) :
    ∀ i < buf.width * buf.height,
      (cannyEdgeMap F buf low high).getD i 0 = 0 ∧
      (applyCannyEdgeDetection F buf low high).data.getD (4 * i) 0 = 0 ∧
      (applyCannyEdgeDetection F buf low high).data.getD (4 * i + 1) 0 = 0 ∧
      (applyCannyEdgeDetection F buf low high).data.getD (4 * i + 2) 0 = 0 := by
  intro i hi
  have hw : 0 < buf.width := by
    rcases Nat.eq_zero_or_pos buf.width with h0 | h
    · rw [h0] at hi
      simp at hi
    · exact h
  have hh : 0 < buf.height := by
    rcases Nat.eq_zero_or_pos buf.height with h0 | h
    · rw [h0] at hi
      simp at hi
    · exact h
  have hsup := cannySuppressed_uniform_zero F buf hs hu hw hh
  have hzero := doubleThreshold_zero_of_pos _ low high hsup (by linarith) (by linarith)
  have hnw : ∀ j, (doubleThreshold (nonMaxSuppression
      (sobelMagnitude F (toGrayscale (gaussianBlur buf 2)) buf.width buf.height)
      (sobelDirection F (toGrayscale (gaussianBlur buf 2)) buf.width buf.height)
      buf.width buf.height F.piQ) low high).getD j 0 ≠ 128 := by
    intro j
    rw [hzero j]
    omega
  have hmain : (cannyEdgeMap F buf low high).getD i 0 = 0 := by
    rw [cannyEdgeMap_def]
    unfold hysteresis
    rw [hystFold_no_weak _ _ _ hnw]
    exact hzero i
  have hlen2 : i < (cannyEdgeMap F buf low high).length := by
    rw [cannyEdgeMap_length]
    exact hi
  obtain ⟨h0, h1, h2, _⟩ := rgbaOfValues_getD (cannyEdgeMap F buf low high) hlen2
  exact ⟨hmain,
    by show (rgbaOfValues (cannyEdgeMap F buf low high)).getD (4 * i) 0 = 0
       rw [h0, hmain],
    by show (rgbaOfValues (cannyEdgeMap F buf low high)).getD (4 * i + 1) 0 = 0
       rw [h1, hmain],
    by show (rgbaOfValues (cannyEdgeMap F buf low high)).getD (4 * i + 2) 0 = 0
       rw [h2, hmain]⟩

/-- Witness for the amended C7 at a concrete uniform run. -/
theorem canny_uniform_buffer_zero_edge_map_witness :
    (cannyEdgeMap F0 uni3 50 150).getD 0 0 = 0 ∧
    (applyCannyEdgeDetection F0 uni3 50 150).data.getD (4 * 0) 0 = 0 ∧
    (applyCannyEdgeDetection F0 uni3 50 150).data.getD (4 * 0 + 1) 0 = 0 ∧
    (applyCannyEdgeDetection F0 uni3 50 150).data.getD (4 * 0 + 2) 0 = 0 :=
  canny_uniform_buffer_zero_edge_map F0 uni3 50 150 rfl (by decide)
    (by norm_num) (by norm_num) 0 (by decide)

/-- Concrete double-threshold labels of the chain example: `(1,1)` and
`(2,1)` weak, `(3,1)` strong, everything else 0. -/
theorem chainMag_labels :
    doubleThreshold chainMag 100 200 =
      [0, 0, 0, 0, 0, 0, 128, 128, 255, 0, 0, 0, 0, 0, 0] := by
  norm_num [doubleThreshold, chainMag]

/-- Concrete hysteresis output of the chain example: scanning left to right,
`(1,1)` is demoted to 0 (its neighbours are weak or 0 at visit time) and
`(2,1)` is promoted (it touches the strong `(3,1)`). -/
theorem chainMag_hysteresis :
    hysteresis chainMag 5 3 100 200 =
      [0, 0, 0, 0, 0, 0, 0, 255, 255, 0, 0, 0, 0, 0, 0] := by
  unfold hysteresis
  rw [chainMag_labels]
  decide

/-- C1: the hysteresis pass promotes a weak pixel only when one of its eight
neighbours holds the strong label at the moment the pass reaches the pixel
(the state after the scan prefix `l₁`); and it is not a transitive
flood-fill: in the chain example the weak pixel `(1,1)`, 8-connected to the
strong pixel `(3,1)` only through the weak pixel `(2,1)`, is demoted to 0. -/
theorem canny_hysteresis_single_pass :
    (∀ (mag : List ℚ) (w h : ℕ) (low high : ℚ) (l₁ l₂ : List (ℕ × ℕ)) (p : ℕ × ℕ),
      hystPositions w h = l₁ ++ p :: l₂ →
      (doubleThreshold mag low high).getD (posIdx w p) 0 = 128 →
      (hysteresis mag w h low high).getD (posIdx w p) 0 = 255 →
      hasStrongNeighbor (l₁.foldl (hystStep w) (doubleThreshold mag low high))
        w p.1 p.2 = true) ∧
    ((doubleThreshold chainMag 100 200).getD (posIdx 5 (1, 1)) 0 = 128 ∧
     (doubleThreshold chainMag 100 200).getD (posIdx 5 (2, 1)) 0 = 128 ∧
     (doubleThreshold chainMag 100 200).getD (posIdx 5 (3, 1)) 0 = 255 ∧
     (∀ i < 15, (doubleThreshold chainMag 100 200).getD i 0 = 255 → i = posIdx 5 (3, 1)) ∧
     adj8 (1, 1) (2, 1) ∧ adj8 (2, 1) (3, 1) ∧ ¬ adj8 (1, 1) (3, 1) ∧
     (hysteresis chainMag 5 3 100 200).getD (posIdx 5 (1, 1)) 0 = 0 ∧
     (hysteresis chainMag 5 3 100 200).getD (posIdx 5 (3, 1)) 0 = 255) := by
  constructor
  · intro mag w h low high l₁ l₂ p hsplit hweak hfinal
    have hpair := hystPositions_pairwise w h
    rw [hsplit, List.pairwise_append] at hpair
    obtain ⟨hp1, hp2, hcross⟩ := hpair
    have hl₁ : ∀ q ∈ l₁, posIdx w q ≠ posIdx w p :=
      fun q hq => hcross q hq p (List.mem_cons_self p l₂)
    have hl₂ : ∀ q ∈ l₂, posIdx w q ≠ posIdx w p :=
      fun q hq heq => (List.pairwise_cons.mp hp2).1 q hq heq.symm
    unfold hysteresis at hfinal
    rw [hsplit, List.foldl_append, List.foldl_cons,
      hystFold_getD_ne w l₂ _ hl₂] at hfinal
    have hbefore : (l₁.foldl (hystStep w) (doubleThreshold mag low high)).getD
        (posIdx w p) 0 = 128 := by
      rw [hystFold_getD_ne w l₁ _ hl₁]
      exact hweak
    rw [hystStep_def, if_pos hbefore,
      getD_set_self _ _ 0 (lt_length_of_getD_ne _ 0 (by rw [hbefore]; norm_num))] at hfinal
    by_cases hs : hasStrongNeighbor (l₁.foldl (hystStep w) (doubleThreshold mag low high))
        w p.1 p.2 = true
    · exact hs
    · rw [if_neg hs] at hfinal
      omega
  · refine ⟨by rw [chainMag_labels]; rfl, by rw [chainMag_labels]; rfl,
      by rw [chainMag_labels]; rfl, ?_, by decide, by decide, by decide,
      by rw [chainMag_hysteresis]; rfl, by rw [chainMag_hysteresis]; rfl⟩
    intro i hi h255
    rw [chainMag_labels] at h255
    exact (by decide : ∀ j < 15,
      ([0, 0, 0, 0, 0, 0, 128, 128, 255, 0, 0, 0, 0, 0, 0] : List ℕ).getD j 0 = 255 →
        j = posIdx 5 (3, 1)) i hi h255

/-- Witness for C1 at the chain example: the promotion of `(2,1)` exhibits a
strong neighbour in the state the pass had reached when visiting it. -/
theorem canny_hysteresis_single_pass_witness :
    hasStrongNeighbor ([(1, 1)].foldl (hystStep 5) (doubleThreshold chainMag 100 200))
      5 2 1 = true :=
  canny_hysteresis_single_pass.1 chainMag 5 3 100 200 [(1, 1)] [(3, 1)] (2, 1)
    (by decide) (by rw [chainMag_labels]; rfl) (by rw [chainMag_hysteresis]; rfl)

/-- C8: raising both thresholds never increases the number of strong pixels
in the final edge map, for every float model, buffer and threshold pairs. -/
theorem canny_strong_count_antitone (F : FloatOps) (buf : PixelBuffer)
    (low₁ high₁ low₂ high₂ : ℚ) (hlow : low₁ ≤ low₂) (hhigh : high₁ ≤ high₂) :
    strongCount (cannyEdgeMap F buf low₂ high₂) ≤
      strongCount (cannyEdgeMap F buf low₁ high₁) := by
  rw [cannyEdgeMap_def, cannyEdgeMap_def]
  set sup := nonMaxSuppression
    (sobelMagnitude F (toGrayscale (gaussianBlur buf 2)) buf.width buf.height)
    (sobelDirection F (toGrayscale (gaussianBlur buf 2)) buf.width buf.height)
    buf.width buf.height F.piQ with hsupdef
  unfold hysteresis strongCount
  apply count_255_le
  · rw [hystFold_length, hystFold_length, doubleThreshold_length, doubleThreshold_length]
  · intro i h2
    have hA := hystFold_label buf.width (hystPositions buf.width buf.height)
      (doubleThreshold sup low₁ high₁) (doubleThreshold_label sup low₁ high₁) i
    have hle := hystFold_mono buf.width (hystPositions buf.width buf.height)
      (doubleThreshold sup low₁ high₁) (doubleThreshold sup low₂ high₂)
      (doubleThreshold_label sup low₁ high₁) (doubleThreshold_label sup low₂ high₂)
      (doubleThreshold_mono sup hlow hhigh) i
    rw [h2] at hle
    rcases hA with hc | hc | hc <;> omega

/-- Witness for C8 at a concrete buffer and two ordered threshold pairs. -/
theorem canny_strong_count_antitone_witness :
    strongCount (cannyEdgeMap F0 uni3 30 40) ≤ strongCount (cannyEdgeMap F0 uni3 10 20) :=
  canny_strong_count_antitone F0 uni3 10 20 30 40 (by norm_num) (by norm_num)

/-- The clamped byte store fixes 0. -/
theorem clampedByte_zero : clampedByte 0 = 0 := by
  simp [clampedByte]

/-- The clamped byte store fixes 255. -/
theorem clampedByte_255 : clampedByte 255 = 255 := by
  norm_num [clampedByte]

/-- C9: when some Sobel magnitude is non-zero, the SobelOnly output attains
the channel value 255 (at the pixel of maximum magnitude, normalised to
exactly 255 by construction) and never exceeds it — its maximum channel
value over all pixels is exactly 255.  The only assumption on the
square-root model is nonnegativity on nonnegative inputs, which `Math.sqrt`
satisfies. -/
theorem sobel_only_max_is_255 (F : FloatOps) (buf : PixelBuffer)
    (hsq : ∀ q, 0 ≤ q → 0 ≤ F.sqrtQ q)
    (hnz : ∃ i, (sobelMagnitude F (toGrayscale buf) buf.width buf.height).getD i 0 ≠ 0) :
    (∃ j < buf.width * buf.height,
      (applySobelEdgeDetection F buf).data.getD (4 * j) 0 = 255) ∧
    (∀ n, (applySobelEdgeDetection F buf).data.getD n 0 ≤ 255) := by
  set mags := sobelMagnitude F (toGrayscale buf) buf.width buf.height with hmagdef
  have hlen : mags.length = buf.width * buf.height := by
    rw [hmagdef]
    exact sobelMagnitude_length F _ _ _
  have hnonneg : ∀ x ∈ mags, 0 ≤ x := by
    rw [hmagdef]
    exact sobelMagnitude_nonneg F _ _ _ hsq
  obtain ⟨i, hi⟩ := hnz
  have hilt : i < mags.length := lt_length_of_getD_ne mags 0 hi
  have himem : mags.getD i 0 ∈ mags := by
    rw [List.getD_eq_getElem _ _ hilt]
    exact List.getElem_mem hilt
  have hipos : 0 < mags.getD i 0 := lt_of_le_of_ne (hnonneg _ himem) (Ne.symm hi)
  have hMge : mags.getD i 0 ≤ sobelMaxMag mags := runmax_mem_le mags 0 himem
  have hMpos : 0 < sobelMaxMag mags := lt_of_lt_of_le hipos hMge
  have hMmem : sobelMaxMag mags ∈ mags := by
    rcases runmax_eq_init_or_mem mags 0 with h0 | hm
    · exfalso
      have hz : sobelMaxMag mags = 0 := h0
      linarith
    · exact hm
  obtain ⟨j, hjlt, hjval⟩ := List.mem_iff_getElem.mp hMmem
  have hjlt2 : j < buf.width * buf.height := by
    rw [← hlen]
    exact hjlt
  constructor
  · refine ⟨j, hjlt2, ?_⟩
    have h4 := (rgbaOfValues_getD (sobelValues mags buf.width buf.height)
      (by rw [sobelValues_length]; exact hjlt2)).1
    show (rgbaOfValues (sobelValues mags buf.width buf.height)).getD (4 * j) 0 = 255
    rw [h4, sobelValues_getD mags _ _ hjlt2]
    have hjv : mags.getD j 0 = sobelMaxMag mags := by
      rw [List.getD_eq_getElem _ _ hjlt]
      exact hjval
    rw [hjv, div_self (ne_of_gt hMpos), one_mul, min_self]
    exact clampedByte_255
  · intro n
    show (rgbaOfValues (sobelValues mags buf.width buf.height)).getD n 0 ≤ 255
    apply rgbaOfValues_getD_le
    intro v hv
    unfold sobelValues at hv
    rcases List.mem_map.mp hv with ⟨k, _, rfl⟩
    exact clampedByte_le _

/-- C10: when every Sobel magnitude is zero, the SobelOnly variant completes
without failure and outputs pure black: the division `0 / 0` (NaN in the
source, 0 under the `ℚ` convention) is mapped to the stored byte 0 by the
clamped store in both readings, so every pixel is `(0, 0, 0, 255)`. -/
theorem sobel_only_zero_gradient_all_black (F : FloatOps) (buf : PixelBuffer)
    (hz : ∀ i, (sobelMagnitude F (toGrayscale buf) buf.width buf.height).getD i 0 = 0) :
    ∀ i < buf.width * buf.height,
      (applySobelEdgeDetection F buf).data.getD (4 * i) 0 = 0 ∧
      (applySobelEdgeDetection F buf).data.getD (4 * i + 1) 0 = 0 ∧
      (applySobelEdgeDetection F buf).data.getD (4 * i + 2) 0 = 0 ∧
      (applySobelEdgeDetection F buf).data.getD (4 * i + 3) 0 = 255 := by
  intro i hi
  set mags := sobelMagnitude F (toGrayscale buf) buf.width buf.height with hmagdef
  have hv : (sobelValues mags buf.width buf.height).getD i 0 = 0 := by
    rw [sobelValues_getD mags _ _ hi, hmagdef, hz i, zero_div, zero_mul]
    rw [show min (255 : ℚ) 0 = 0 by norm_num]
    exact clampedByte_zero
  obtain ⟨h0, h1, h2, h3⟩ := rgbaOfValues_getD (sobelValues mags buf.width buf.height)
    (by rw [sobelValues_length]; exact hi)
  exact ⟨by show (rgbaOfValues (sobelValues mags buf.width buf.height)).getD (4 * i) 0 = 0
            rw [h0, hv],
         by show (rgbaOfValues (sobelValues mags buf.width buf.height)).getD (4 * i + 1) 0 = 0
            rw [h1, hv],
         by show (rgbaOfValues (sobelValues mags buf.width buf.height)).getD (4 * i + 2) 0 = 0
            rw [h2, hv],
         by show (rgbaOfValues (sobelValues mags buf.width buf.height)).getD (4 * i + 3) 0 = 255
            rw [h3]⟩

/-- Witness for C10 at a concrete uniform buffer. -/
theorem sobel_only_zero_gradient_all_black_witness :
    (applySobelEdgeDetection F0 uni3).data.getD (4 * 0) 0 = 0 ∧
    (applySobelEdgeDetection F0 uni3).data.getD (4 * 0 + 1) 0 = 0 ∧
    (applySobelEdgeDetection F0 uni3).data.getD (4 * 0 + 2) 0 = 0 ∧
    (applySobelEdgeDetection F0 uni3).data.getD (4 * 0 + 3) 0 = 255 :=
  sobel_only_zero_gradient_all_black F0 uni3
    (sobelMagnitude_uniform_zero F0 (toGrayscale uni3) uni3.width uni3.height rfl
      (toGrayscale_uniform uni3 (by decide))) 0 (by decide)

/-- Concrete grayscale of the contrast buffer: black left column, white rest. -/
theorem buf3_grayscale : toGrayscale buf3 = [0, 255, 255, 0, 255, 255, 0, 255, 255] := by
  rw [toGrayscale, show buf3.width * buf3.height = 9 from rfl,
    show List.range 9 = [0, 1, 2, 3, 4, 5, 6, 7, 8] from rfl]
  norm_num [buf3, clampedByte]

/-- The contrast buffer has a non-zero Sobel magnitude at its centre pixel. -/
theorem buf3_center_magnitude :
    (sobelMagnitude F0 (toGrayscale buf3) buf3.width buf3.height).getD 4 0 = 1040400 := by
  rw [buf3_grayscale, sobelMagnitude_getD F0 _ _ _ (by decide), if_pos (by decide)]
  rw [show sobelGx [0, 255, 255, 0, 255, 255, 0, 255, 255] buf3.width
      (4 % buf3.width) (4 / buf3.width) = 1020 by decide,
    show sobelGy [0, 255, 255, 0, 255, 255, 0, 255, 255] buf3.width
      (4 % buf3.width) (4 / buf3.width) = 0 by decide]
  show ((1020 : ℤ) : ℚ) * ((1020 : ℤ) : ℚ) + ((0 : ℤ) : ℚ) * ((0 : ℤ) : ℚ) = 1040400
  norm_num

/-- Witness for C9 at the concrete contrast buffer. -/
theorem sobel_only_max_is_255_witness :
    (∃ j < buf3.width * buf3.height,
      (applySobelEdgeDetection F0 buf3).data.getD (4 * j) 0 = 255) ∧
    (∀ n, (applySobelEdgeDetection F0 buf3).data.getD n 0 ≤ 255) :=
  sobel_only_max_is_255 F0 buf3 (fun q hq => hq)
    ⟨4, by rw [buf3_center_magnitude]; norm_num⟩

/-- C5 counterexample: on a freshly constructed renderer with no texture
loaded under `"main"`, a `render` with a non-original effect is NOT a
draw-free no-op: the command trace still ends in the 4-vertex draw call
(the code merely skips the texture bind). -/
theorem renderer_draws_without_main_texture :
    (WebGLRenderer.init 640 480).textures.lookup mainTextureName = none ∧
    GLCmd.drawArrays 4 ∈ ((WebGLRenderer.init 640 480).render effectGrayscale).2.1 ∧
    ((WebGLRenderer.init 640 480).render effectGrayscale).2.2 = [] := by
  decide

/-- C5 (amended): with no `"main"` texture and a compiled program for the
requested non-original effect, `render` raises no error and still issues the
full draw sequence — program bind, quad attributes, the resolution uniform
for the edge effect, clear, and the triangle-strip draw — omitting only the
texture bind and sampler uniform. -/
theorem render_without_texture_still_draws (r : WebGLRenderer) (effect : String)
    (program : ℕ) (hne : effect ≠ effectOriginal)
    (hprog : r.programs.lookup effect = some program)
    (htex : r.textures.lookup mainTextureName = none) :
    (r.render effect).2.1 =
      [GLCmd.useProgram program, GLCmd.setupAttrib attrPosition,
        GLCmd.setupAttrib attrTexCoord] ++
      (if effect = effectEdge then
        [GLCmd.uniform2f uniformResolution r.canvasWidth r.canvasHeight]
      else []) ++ [GLCmd.clear, GLCmd.drawArrays 4] ∧
    (∀ t, GLCmd.bindTexture t ∉ (r.render effect).2.1) ∧
    ((r.render effect).2.2 = []) := by
  have hdef : r.render effect =
      ({ r with currentProgram := some program },
       [GLCmd.useProgram program, GLCmd.setupAttrib attrPosition,
         GLCmd.setupAttrib attrTexCoord] ++
       (if effect = effectEdge then
         [GLCmd.uniform2f uniformResolution r.canvasWidth r.canvasHeight]
       else []) ++ [GLCmd.clear, GLCmd.drawArrays 4], []) := by
    unfold WebGLRenderer.render
    rw [if_neg hne, hprog, htex]
    simp
  refine ⟨by rw [hdef], ?_, by rw [hdef]⟩
  intro t
  rw [hdef]
  by_cases he : effect = effectEdge
  · rw [if_pos he]
    simp
  · rw [if_neg he]
    simp

/-- Witness for the amended C5 at a fresh renderer and the grayscale effect. -/
theorem render_without_texture_still_draws_witness :
    ((WebGLRenderer.init 640 480).render effectGrayscale).2.1 =
      [GLCmd.useProgram 0, GLCmd.setupAttrib attrPosition,
        GLCmd.setupAttrib attrTexCoord] ++
      (if effectGrayscale = effectEdge then
        [GLCmd.uniform2f uniformResolution (WebGLRenderer.init 640 480).canvasWidth
          (WebGLRenderer.init 640 480).canvasHeight]
      else []) ++ [GLCmd.clear, GLCmd.drawArrays 4] ∧
    (∀ t, GLCmd.bindTexture t ∉ ((WebGLRenderer.init 640 480).render effectGrayscale).2.1) ∧
    (((WebGLRenderer.init 640 480).render effectGrayscale).2.2 = []) :=
  render_without_texture_still_draws (WebGLRenderer.init 640 480) effectGrayscale 0
    (by decide) (by decide) (by decide)

/-- C6 counterexample: after `dispose()`, subsequent calls do NOT fail fast:
`loadTexture` succeeds (and repopulates the texture map), `render` returns
normally as a silent no-op with only a console diagnostic, and `resize`
updates the dimensions as usual.  No use-after-dispose error exists in the
code. -/
theorem renderer_methods_survive_dispose :
    ((((WebGLRenderer.init 640 480).dispose).1.loadTexture 7 mainTextureName).isOk = true) ∧
    ((((WebGLRenderer.init 640 480).dispose).1.render effectGrayscale).2.1 = []) ∧
    ((((WebGLRenderer.init 640 480).dispose).1.render effectGrayscale).2.2 =
      ["Shader program " ++ effectGrayscale ++ " not found"]) ∧
    ((((WebGLRenderer.init 640 480).dispose).1.resize 320 240).1.canvasWidth = 320) ∧
    ((((WebGLRenderer.init 640 480).dispose).1.resize 320 240).1.canvasHeight = 240) := by
  refine ⟨rfl, rfl, rfl, rfl, rfl⟩

/-- C6 (amended): `dispose()` only clears the two resource maps; afterwards
no method raises: `loadTexture` returns normally, `render` with a
non-original effect is a silent no-op (empty trace, one console diagnostic,
because the program cache is empty), and `resize` works unchanged. -/
theorem renderer_no_use_after_dispose_error (r : WebGLRenderer) (image : ℕ)
    (name : String) (width height : ℕ) (effect : String)
    (hne : effect ≠ effectOriginal) :
    (∃ r2 cmds, (r.dispose).1.loadTexture image name = Except.ok (r2, cmds)) ∧
    ((r.dispose).1.render effect).2.1 = [] ∧
    ((r.dispose).1.render effect).2.2 = ["Shader program " ++ effect ++ " not found"] ∧
    ((r.dispose).1.resize width height).1.canvasWidth = width ∧
    ((r.dispose).1.resize width height).1.canvasHeight = height := by
  have hrender : (r.dispose).1.render effect =
      ((r.dispose).1, [], ["Shader program " ++ effect ++ " not found"]) := by
    unfold WebGLRenderer.render
    rw [if_neg hne]
    rfl
  exact ⟨⟨_, _, rfl⟩, by rw [hrender], by rw [hrender], rfl, rfl⟩

/-- Witness for the amended C6 at a fresh renderer. -/
theorem renderer_no_use_after_dispose_error_witness :
    (∃ r2 cmds, ((WebGLRenderer.init 640 480).dispose).1.loadTexture 7 mainTextureName =
      Except.ok (r2, cmds)) ∧
    (((WebGLRenderer.init 640 480).dispose).1.render effectGrayscale).2.1 = [] ∧
    (((WebGLRenderer.init 640 480).dispose).1.render effectGrayscale).2.2 =
      ["Shader program " ++ effectGrayscale ++ " not found"] ∧
    (((WebGLRenderer.init 640 480).dispose).1.resize 320 240).1.canvasWidth = 320 ∧
    (((WebGLRenderer.init 640 480).dispose).1.resize 320 240).1.canvasHeight = 240 :=
  renderer_no_use_after_dispose_error (WebGLRenderer.init 640 480) 7 mainTextureName
    320 240 effectGrayscale (by decide)
